import Mathlib

/-!
Verification of the mlx-serving request-scheduling core against its
natural-language specification.

Each Python component relevant to the checked claims is shallowly embedded as
executable Lean definitions: mutable objects become explicit state records,
wall-clock reads become explicit time parameters, Python floats become
rationals, and opaque external dependencies (the tensor library, SHA-256)
become function parameters or oracle inputs.  The embedded definitions follow
the Python sources in `python/` of the repository; file and line references
are given in the doc comments.
-/

namespace MlxServing

/-! ## Small helpers shared by several embeddings -/

/-- Truncation of a nonnegative rational to a natural number, mirroring
Python `int(x)` for `x ≥ 0` (truncation toward zero, which for nonnegative
arguments equals the floor).  Defined via the numerator and denominator so
that it evaluates by kernel reduction. -/
def ratFloorNat (q : ℚ) : ℕ := q.num.toNat / q.den

theorem ratFloorNat_eq_floor (q : ℚ) (h : 0 ≤ q) : (ratFloorNat q : ℤ) = ⌊q⌋ := by
  rw [Rat.floor_def, ratFloorNat]
  rw [Int.ofNat_ediv]
  congr 1
  exact Int.toNat_of_nonneg (Rat.num_nonneg.mpr h)

/-! ## Adaptive batch controller

Embedding of `python/models/adaptive_controller.py` (class
`AdaptiveBatchController`).  `time.time() * 1000` is passed in explicitly as
`now_ms`; latencies are rationals. -/

/-- Configuration record, from `AdaptiveBatchConfig`
(`python/models/adaptive_controller.py`, lines 25-34). -/
structure AdaptiveBatchConfig where
  enabled : Bool
  min_batch_size : ℤ
  max_batch_size : ℤ
  target_latency_ms : ℚ
  ema_alpha : ℚ
  adjustment_interval_ms : ℚ
deriving DecidableEq

/-- Mutable state of `AdaptiveBatchController` (`__init__`, lines 55-69). -/
structure AdaptiveBatchController where
  config : AdaptiveBatchConfig
  current_size : ℤ
  ema_latency : ℚ
  last_adjustment_time : ℚ
  total_batches : ℕ
  total_adjustments : ℕ
  size_increase_count : ℕ
  size_decrease_count : ℕ
deriving DecidableEq

/-- Initial controller state (`__init__`): the current size starts at the
configured minimum, the EMA at zero, all counters at zero. -/
def AdaptiveBatchController.init (config : AdaptiveBatchConfig) : AdaptiveBatchController :=
  { config := config, current_size := config.min_batch_size, ema_latency := 0,
    last_adjustment_time := 0, total_batches := 0, total_adjustments := 0,
    size_increase_count := 0, size_decrease_count := 0 }

/-- Embedding of `_calculate_adjustment` (lines 142-181): compare the EMA
latency against the plus or minus ten percent band around the target. -/
def AdaptiveBatchController.calculate_adjustment (c : AdaptiveBatchController) : ℤ :=
  let target := c.config.target_latency_ms
  let lower_bound := target * (9/10)
  let upper_bound := target * (11/10)
  if c.ema_latency < lower_bound then
    min c.config.max_batch_size (c.current_size + 1)
  else if c.ema_latency > upper_bound then
    max c.config.min_batch_size (c.current_size - 1)
  else
    c.current_size

/-- Embedding of `_apply_adjustment` (lines 183-207): set the new size,
stamp the adjustment time, and bump the direction counters. -/
def AdaptiveBatchController.apply_adjustment (now_ms : ℚ) (new_size : ℤ)
    (c : AdaptiveBatchController) : AdaptiveBatchController :=
  let old_size := c.current_size
  let c1 := { c with current_size := new_size, last_adjustment_time := now_ms }
  let c2 :=
    if new_size > old_size then { c1 with size_increase_count := c1.size_increase_count + 1 }
    else if new_size < old_size then { c1 with size_decrease_count := c1.size_decrease_count + 1 }
    else c1
  if new_size ≠ old_size then { c2 with total_adjustments := c2.total_adjustments + 1 } else c2

/-- Embedding of `update` (lines 78-140).  Returns the updated state and the
recommended batch size (the Python return value).  The wall-clock read
`time.time() * 1000` is the explicit argument `now_ms`; the unused
`batch_size` argument of the source is kept for signature fidelity. -/
def AdaptiveBatchController.update (now_ms : ℚ) (batch_latency_ms : ℚ) (batch_size : ℤ)
    (c : AdaptiveBatchController) : AdaptiveBatchController × ℤ :=
  if c.config.enabled = false then (c, c.config.min_batch_size)
  else if batch_latency_ms ≤ 0 then (c, c.current_size)
  else if batch_latency_ms > c.config.target_latency_ms * 10 then
    let c1 := c.apply_adjustment now_ms c.config.min_batch_size
    (c1, c1.current_size)
  else
    let c1 :=
      if c.ema_latency = 0 then { c with ema_latency := batch_latency_ms }
      else { c with ema_latency :=
               c.config.ema_alpha * batch_latency_ms + (1 - c.config.ema_alpha) * c.ema_latency }
    let c2 := { c1 with total_batches := c1.total_batches + 1 }
    if now_ms - c2.last_adjustment_time < c2.config.adjustment_interval_ms then
      (c2, c2.current_size)
    else
      let new_size := c2.calculate_adjustment
      let c3 := if new_size ≠ c2.current_size then c2.apply_adjustment now_ms new_size else c2
      (c3, c3.current_size)

/-- Fold a sequence of `update` calls over a controller; each input is the
triple (wall-clock milliseconds, observed latency, reported batch size). -/
def runUpdates (c : AdaptiveBatchController) (inputs : List (ℚ × ℚ × ℤ)) :
    AdaptiveBatchController :=
  inputs.foldl (fun s i => (AdaptiveBatchController.update i.1 i.2.1 i.2.2 s).1) c

/-- Recommended size lies between the configured minimum and maximum. -/
def sizeInBounds (c : AdaptiveBatchController) : Prop :=
  c.config.min_batch_size ≤ c.current_size ∧ c.current_size ≤ c.config.max_batch_size

theorem apply_adjustment_config (now_ms : ℚ) (new_size : ℤ) (c : AdaptiveBatchController) :
    (c.apply_adjustment now_ms new_size).config = c.config := by
  unfold AdaptiveBatchController.apply_adjustment
  dsimp only
  split_ifs <;> rfl

theorem apply_adjustment_current (now_ms : ℚ) (new_size : ℤ) (c : AdaptiveBatchController) :
    (c.apply_adjustment now_ms new_size).current_size = new_size := by
  unfold AdaptiveBatchController.apply_adjustment
  dsimp only
  split_ifs <;> rfl

theorem calculate_adjustment_bounds (c : AdaptiveBatchController)
    (hmm : c.config.min_batch_size ≤ c.config.max_batch_size)
    (h1 : c.config.min_batch_size ≤ c.current_size)
    (h2 : c.current_size ≤ c.config.max_batch_size) :
    c.config.min_batch_size ≤ c.calculate_adjustment ∧
      c.calculate_adjustment ≤ c.config.max_batch_size := by
  unfold AdaptiveBatchController.calculate_adjustment
  dsimp only
  split_ifs <;> constructor <;> omega

theorem calculate_adjustment_step (c : AdaptiveBatchController)
    (h1 : c.config.min_batch_size ≤ c.current_size)
    (h2 : c.current_size ≤ c.config.max_batch_size) :
    (c.calculate_adjustment - c.current_size).natAbs ≤ 1 := by
  unfold AdaptiveBatchController.calculate_adjustment
  dsimp only
  split_ifs <;> omega

theorem update_config (now_ms batch_latency_ms : ℚ) (batch_size : ℤ)
    (c : AdaptiveBatchController) :
    (c.update now_ms batch_latency_ms batch_size).1.config = c.config := by
  unfold AdaptiveBatchController.update
  dsimp only
  split_ifs <;> simp [apply_adjustment_config]

theorem update_preserves_bounds (now_ms batch_latency_ms : ℚ) (batch_size : ℤ)
    (c : AdaptiveBatchController)
    (hmm : c.config.min_batch_size ≤ c.config.max_batch_size)
    (h : sizeInBounds c) :
    sizeInBounds (c.update now_ms batch_latency_ms batch_size).1 := by
  obtain ⟨h1, h2⟩ := h
  unfold sizeInBounds
  rw [update_config]
  unfold AdaptiveBatchController.update
  dsimp only
  split_ifs with hdis hneg hext hema hrate hchg hrate hchg
  · exact ⟨h1, h2⟩
  · exact ⟨h1, h2⟩
  · rw [apply_adjustment_current]
    exact ⟨le_refl _, hmm⟩
  · exact ⟨h1, h2⟩
  · rw [apply_adjustment_current]
    exact calculate_adjustment_bounds _ hmm h1 h2
  · exact ⟨h1, h2⟩
  · exact ⟨h1, h2⟩
  · rw [apply_adjustment_current]
    exact calculate_adjustment_bounds _ hmm h1 h2
  · exact ⟨h1, h2⟩

theorem update_nonextreme_step (now_ms batch_latency_ms : ℚ) (batch_size : ℤ)
    (c : AdaptiveBatchController) (h : sizeInBounds c)
    (hlat : ¬ batch_latency_ms > c.config.target_latency_ms * 10) :
    ((c.update now_ms batch_latency_ms batch_size).1.current_size - c.current_size).natAbs
      ≤ 1 := by
  obtain ⟨h1, h2⟩ := h
  unfold AdaptiveBatchController.update
  dsimp only
  split_ifs <;>
    simp only [apply_adjustment_current] <;>
    first
      | simp
      | exact calculate_adjustment_step _ h1 h2

theorem runUpdates_preserves_bounds (inputs : List (ℚ × ℚ × ℤ)) (c : AdaptiveBatchController)
    (hmm : c.config.min_batch_size ≤ c.config.max_batch_size)
    (h : sizeInBounds c) : sizeInBounds (runUpdates c inputs) := by
  induction inputs generalizing c with
  | nil => exact h
  | cons i rest ih =>
      have hc := update_config i.1 i.2.1 i.2.2 c
      exact ih _ (by rw [hc]; exact hmm) (update_preserves_bounds i.1 i.2.1 i.2.2 c hmm h)

theorem runUpdates_config (inputs : List (ℚ × ℚ × ℤ)) (c : AdaptiveBatchController) :
    (runUpdates c inputs).config = c.config := by
  induction inputs generalizing c with
  | nil => rfl
  | cons i rest ih => rw [runUpdates, List.foldl_cons, ← runUpdates, ih, update_config]

/-- Controller configuration for the C4 and C8 scenarios: the source defaults
(enabled, sizes 2..16, 10 ms target, alpha 0.3, 1000 ms adjustment interval). -/
def c4_config : AdaptiveBatchConfig :=
  { enabled := true, min_batch_size := 2, max_batch_size := 16, target_latency_ms := 10,
    ema_alpha := 3/10, adjustment_interval_ms := 1000 }

/-- Controller state for the C4 scenario: current size 10, EMA latency 20 ms,
last adjustment long enough ago that the periodic path may adjust. -/
def c4_controller : AdaptiveBatchController :=
  { config := c4_config, current_size := 10, ema_latency := 20, last_adjustment_time := 0,
    total_batches := 5, total_adjustments := 0, size_increase_count := 0,
    size_decrease_count := 0 }

/-- C4 counterexample: the observed latency 50 ms satisfies the claimed
trigger (50 > target × 2.0 = 20 and 50 > 1.5 × EMA = 30), yet the embedded
`update` of `AdaptiveBatchController` does not reduce the size by 2 to
max(min_batch_size, 10 − 2) = 8; it takes the ordinary periodic path
(50 ≤ 10 × target) and moves the size by one step, to 9. -/
theorem c4_counterexample :
    (50 : ℚ) > c4_controller.config.target_latency_ms * 2 ∧
    (50 : ℚ) > (3/2) * c4_controller.ema_latency ∧
    (c4_controller.update 2000 50 10).1.current_size = 9 ∧
    max c4_controller.config.min_batch_size (c4_controller.current_size - 2) = 8 ∧
    (c4_controller.update 2000 50 10).1.current_size ≠
      max c4_controller.config.min_batch_size (c4_controller.current_size - 2) := by
  refine ⟨?_, ?_, ?_, ?_, ?_⟩ <;>
    norm_num [AdaptiveBatchController.update, AdaptiveBatchController.calculate_adjustment,
      AdaptiveBatchController.apply_adjustment, c4_controller, c4_config]

/-- C4 (amended): the embedded controller has no emergency path triggered by
(latency > 2 × target and latency > 1.5 × EMA); its emergency reduction
triggers on latency > 10 × target and then sets the recommended batch size
to exactly `min_batch_size` (not a reduction by 2). -/
theorem c4_amended_extreme_latency_resets_to_min (now_ms batch_latency_ms : ℚ)
    (batch_size : ℤ) (c : AdaptiveBatchController)
    (hen : c.config.enabled = true)
    (htar : 0 < c.config.target_latency_ms)
    (hlat : c.config.target_latency_ms * 10 < batch_latency_ms) :
    (c.update now_ms batch_latency_ms batch_size).1.current_size = c.config.min_batch_size ∧
    (c.update now_ms batch_latency_ms batch_size).2 = c.config.min_batch_size := by
  have h10 : (0 : ℚ) < c.config.target_latency_ms * 10 := by positivity
  have hpos : ¬ batch_latency_ms ≤ 0 := by linarith
  unfold AdaptiveBatchController.update
  dsimp only
  rw [if_neg (by simp [hen]), if_neg hpos, if_pos hlat]
  exact ⟨apply_adjustment_current _ _ _, apply_adjustment_current _ _ _⟩

/-- Witness for the amended C4 theorem at a concrete input: latency 2000 ms
with target 10 ms hits the extreme-latency path and resets the size to 2. -/
theorem c4_amended_witness :
    (c4_controller.update 0 2000 10).1.current_size = c4_controller.config.min_batch_size ∧
    (c4_controller.update 0 2000 10).2 = c4_controller.config.min_batch_size :=
  c4_amended_extreme_latency_resets_to_min 0 2000 10 c4_controller rfl
    (by norm_num [c4_controller, c4_config]) (by norm_num [c4_controller, c4_config])

/-- C8: for an enabled controller with min_batch_size ≤ max_batch_size, the
recommended size after every finite sequence of update calls (starting from
the initial state) lies in [min_batch_size, max_batch_size]; and every
single update step that does not hit the emergency path (latency > 10 ×
target) changes the recommended size by at most 1. -/
theorem c8_adaptive_bounds (cfg : AdaptiveBatchConfig) (inputs : List (ℚ × ℚ × ℤ))
    (hen : cfg.enabled = true) (hmm : cfg.min_batch_size ≤ cfg.max_batch_size) :
    (cfg.min_batch_size ≤ (runUpdates (AdaptiveBatchController.init cfg) inputs).current_size ∧
      (runUpdates (AdaptiveBatchController.init cfg) inputs).current_size
        ≤ cfg.max_batch_size) ∧
    (∀ (c : AdaptiveBatchController) (now_ms batch_latency_ms : ℚ) (batch_size : ℤ),
      sizeInBounds c → ¬ batch_latency_ms > c.config.target_latency_ms * 10 →
      ((c.update now_ms batch_latency_ms batch_size).1.current_size - c.current_size).natAbs
        ≤ 1) := by
  constructor
  · have h := runUpdates_preserves_bounds inputs (AdaptiveBatchController.init cfg) hmm
      ⟨le_refl _, hmm⟩
    have hc := runUpdates_config inputs (AdaptiveBatchController.init cfg)
    obtain ⟨ha, hb⟩ := h
    rw [hc] at ha hb
    exact ⟨ha, hb⟩
  · intro c now_ms batch_latency_ms batch_size hb hl
    exact update_nonextreme_step now_ms batch_latency_ms batch_size c hb hl

/-- Witness for C8: the bounds hold after a concrete update sequence from the
default configuration, and a concrete non-emergency step moves by at most 1. -/
theorem c8_witness :
    ((2:ℤ) ≤ (runUpdates (AdaptiveBatchController.init c4_config) [(0, 5, 2)]).current_size ∧
      (runUpdates (AdaptiveBatchController.init c4_config) [(0, 5, 2)]).current_size ≤ 16) ∧
    ((c4_controller.update 2000 50 10).1.current_size - c4_controller.current_size).natAbs
      ≤ 1 :=
  ⟨(c8_adaptive_bounds c4_config [(0, 5, 2)] rfl (by decide)).1,
   (c8_adaptive_bounds c4_config [] rfl (by decide)).2 c4_controller 2000 50 10
     ⟨by decide, by decide⟩ (by norm_num [c4_controller, c4_config])⟩

/-! ## GPU scheduler

Embedding of the shutdown-relevant state of `python/gpu_scheduler.py`
(class `GPUScheduler`).  Job futures (`asyncio.Future`) are explicit states;
the job queue holds the jobs that were enqueued by `schedule` and never
dequeued by the commit worker (queue order abstracted as a list). -/

/-- Completion slot of a scheduled job: untouched, fulfilled with a result,
or failed with an exception message. -/
inductive FutureState where
  | unresolved : FutureState
  | resolved : ℕ → FutureState
  | failed : String → FutureState
deriving DecidableEq

/-- A scheduled GPU job (dataclass `GPUJob`, lines 90-103); the deferred
operation is opaque, so executing a job consumes an oracle outcome. -/
structure GPUJobM where
  job_id : String
  priority : ℕ
  enqueue_time : ℚ
  future : FutureState
deriving DecidableEq

/-- Scheduler state relevant to shutdown (`__init__`, lines 164-249). -/
structure GPUSchedulerM where
  enabled : Bool
  running : Bool
  job_queue : List GPUJobM
  total_jobs : ℕ
deriving DecidableEq

/-- Embedding of `schedule` (lines 294-332) on an enabled scheduler: create a
job whose future is unresolved and enqueue it.  (The disabled passthrough
path runs the operation without enqueuing and is irrelevant to C3.) -/
def scheduleM (job_id : String) (priority : ℕ) (enqueue_time : ℚ)
    (s : GPUSchedulerM) : GPUSchedulerM :=
  { s with
    job_queue := s.job_queue ++
      [{ job_id := job_id, priority := priority, enqueue_time := enqueue_time,
         future := FutureState.unresolved }],
    total_jobs := s.total_jobs + 1 }

/-- Embedding of `_execute_batch` (lines 446-487): only the jobs of the
dequeued batch have their futures set (result or exception); queued jobs are
never touched by it. -/
def executeBatch (outcomes : List (Option ℕ)) (batch : List GPUJobM) : List GPUJobM :=
  List.zipWith
    (fun o j =>
      { j with
        future :=
          match o with
          | some v => FutureState.resolved v
          | none => FutureState.failed "operation raised" })
    outcomes batch

/-- Embedding of `stop` (lines 271-292): on an enabled running scheduler it
clears the running flag, waits up to 5 s for the commit worker and then
cancels it, and stops the Prometheus exporter.  The source performs no
operation on `job_queue` and touches no pending job future. -/
def stopM (s : GPUSchedulerM) : GPUSchedulerM :=
  if s.enabled = false ∨ s.running = false then s
  else { s with running := false }

/-- Enabled running scheduler with a single job enqueued by `schedule` and
never dequeued. -/
def c3_scheduler : GPUSchedulerM :=
  scheduleM "job_0" 1 0 { enabled := true, running := true, job_queue := [], total_jobs := 0 }

/-- C3 counterexample: after `stop()` on an enabled running scheduler holding
one enqueued, never-dequeued job, that job has not been fulfilled at all —
its future is still unresolved, so it was not completed with a shutdown
error.  This refutes the claim that stop fulfils every pending future. -/
theorem c3_counterexample :
    ¬ (∀ j ∈ (stopM c3_scheduler).job_queue, j.future ≠ FutureState.unresolved) := by
  decide

/-- C3 (amended): `stop()` on an enabled running scheduler only clears the
running flag (after which the commit worker exits and is cancelled if
needed); it leaves the job queue — and hence every never-dequeued job's
unresolved future — exactly as it was.  Pending jobs are not completed with
a shutdown error. -/
theorem c3_amended_stop_leaves_queue (s : GPUSchedulerM)
    (hen : s.enabled = true) (hrun : s.running = true) :
    (stopM s).running = false ∧ (stopM s).job_queue = s.job_queue := by
  unfold stopM
  rw [if_neg]
  · exact ⟨rfl, rfl⟩
  · simp [hen, hrun]

/-- Witness for the amended C3 theorem at the concrete one-job scheduler. -/
theorem c3_amended_witness :
    (stopM c3_scheduler).running = false ∧
      (stopM c3_scheduler).job_queue = c3_scheduler.job_queue :=
  c3_amended_stop_leaves_queue c3_scheduler rfl rfl

/-! ## Async priority queue

Embedding of `python/models/priority_queue.py`.  Python `heapq` is standard
library code, not repository code; it is modelled by its documented contract:
`heappush` adds an item to the heap and `heappop` removes and returns the
smallest item (ties between equal keys resolved in an unspecified but
irrelevant way — the claim only constrains priorities and timestamps). -/

/-- Dataclass `PrioritizedRequest` (lines 58-67): compared by
(priority, timestamp); the wrapped request is excluded from comparison and
modelled as an opaque id. -/
structure PrioritizedRequestM where
  priority : ℤ
  timestamp : ℚ
  request : ℕ
deriving DecidableEq

/-- Order generated by the dataclass decorator: lexicographic on the
compared fields (priority, timestamp). -/
def prLE (a b : PrioritizedRequestM) : Prop :=
  a.priority < b.priority ∨ (a.priority = b.priority ∧ a.timestamp ≤ b.timestamp)

instance (a b : PrioritizedRequestM) : Decidable (prLE a b) := by
  unfold prLE
  infer_instance

theorem prLE_total (a b : PrioritizedRequestM) : prLE a b ∨ prLE b a := by
  unfold prLE
  rcases lt_trichotomy a.priority b.priority with h | h | h
  · exact Or.inl (Or.inl h)
  · rcases le_total a.timestamp b.timestamp with ht | ht
    · exact Or.inl (Or.inr ⟨h, ht⟩)
    · exact Or.inr (Or.inr ⟨h.symm, ht⟩)
  · exact Or.inr (Or.inl h)

/-- Pop a smallest element from the nonempty heap `x :: xs`, returning it and
the remaining elements: the model of `heapq.heappop` on a valid heap. -/
def heapPopSmallest (x : PrioritizedRequestM) (xs : List PrioritizedRequestM) :
    PrioritizedRequestM × List PrioritizedRequestM :=
  match xs with
  | [] => (x, [])
  | y :: ys =>
    let r := heapPopSmallest y ys
    if prLE x r.1 then (x, y :: ys) else (r.1, x :: r.2)

theorem heapPopSmallest_perm (x : PrioritizedRequestM) (xs : List PrioritizedRequestM) :
    List.Perm ((heapPopSmallest x xs).1 :: (heapPopSmallest x xs).2) (x :: xs) := by
  induction xs generalizing x with
  | nil => exact List.Perm.refl _
  | cons y ys ih =>
      unfold heapPopSmallest
      dsimp only
      split_ifs with h
      · exact List.Perm.refl _
      · exact (List.Perm.swap _ _ _).trans ((ih y).cons x)

theorem heapPopSmallest_length (x : PrioritizedRequestM) (xs : List PrioritizedRequestM) :
    (heapPopSmallest x xs).2.length = xs.length := by
  have h := (heapPopSmallest_perm x xs).length_eq
  simpa using h

theorem prLE_refl (a : PrioritizedRequestM) : prLE a a :=
  Or.inr ⟨rfl, le_refl _⟩

theorem prLE_trans {a b c : PrioritizedRequestM} (hab : prLE a b) (hbc : prLE b c) :
    prLE a c := by
  unfold prLE at hab hbc ⊢
  rcases hab with h | ⟨h1, h2⟩ <;> rcases hbc with h3 | ⟨h4, h5⟩
  · left; omega
  · left; omega
  · left; omega
  · exact Or.inr ⟨h1.trans h4, le_trans h2 h5⟩

theorem heapPopSmallest_min (x : PrioritizedRequestM) (xs : List PrioritizedRequestM) :
    ∀ z ∈ x :: xs, prLE (heapPopSmallest x xs).1 z := by
  induction xs generalizing x with
  | nil =>
      intro z hz
      rcases List.mem_singleton.mp hz with rfl
      exact prLE_refl _
  | cons y ys ih =>
      intro z hz
      unfold heapPopSmallest
      dsimp only
      split_ifs with h
      · rcases List.mem_cons.mp hz with rfl | hz
        · exact prLE_refl _
        · exact prLE_trans h (ih y z hz)
      · rcases List.mem_cons.mp hz with rfl | hz
        · exact (prLE_total z (heapPopSmallest y ys).1).resolve_left h
        · exact ih y z hz

/-- Drain the heap by repeated `heappop` until empty: the sequence of
consecutive `get()` results of `AsyncPriorityQueue` (lines 151-181) with no
interleaved puts. -/
def drainHeap (l : List PrioritizedRequestM) : List PrioritizedRequestM :=
  match l with
  | [] => []
  | x :: xs => (heapPopSmallest x xs).1 :: drainHeap (heapPopSmallest x xs).2
termination_by l.length
decreasing_by
  simp [heapPopSmallest_length]

theorem drainHeap_perm (l : List PrioritizedRequestM) : List.Perm (drainHeap l) l := by
  induction l using drainHeap.induct with
  | case1 => rw [drainHeap]
  | case2 x xs ih =>
      rw [drainHeap]
      exact (ih.cons _).trans (heapPopSmallest_perm x xs)

theorem drainHeap_sorted (l : List PrioritizedRequestM) :
    List.Pairwise prLE (drainHeap l) := by
  induction l using drainHeap.induct with
  | case1 =>
      rw [drainHeap]
      exact List.Pairwise.nil
  | case2 x xs ih =>
      rw [drainHeap]
      refine List.Pairwise.cons ?_ ih
      intro z hz
      have hz2 : z ∈ (heapPopSmallest x xs).2 :=
        (drainHeap_perm (heapPopSmallest x xs).2).mem_iff.mp hz
      have hz3 : z ∈ x :: xs :=
        (heapPopSmallest_perm x xs).mem_iff.mp (List.mem_cons_of_mem _ hz2)

      exact heapPopSmallest_min x xs z hz3

/-- Queue state (`__init__`, lines 94-115); the heap list holds the current
multiset of entries. -/
structure AsyncPriorityQueueM where
  heap : List PrioritizedRequestM
  total_enqueued : ℕ
  total_dequeued : ℕ

/-- Embedding of `put` (lines 117-149): `heapq.heappush` adds the item to
the heap (multiset view) and the enqueued counter is bumped. -/
def pqPut (item : PrioritizedRequestM) (q : AsyncPriorityQueueM) : AsyncPriorityQueueM :=
  { q with heap := q.heap ++ [item], total_enqueued := q.total_enqueued + 1 }

/-- Embedding of `get` (lines 151-181): `heapq.heappop` removes and returns
the smallest item; the wrapped request object is returned to the caller. -/
def pqGet (q : AsyncPriorityQueueM) : Option (ℕ × AsyncPriorityQueueM) :=
  match q.heap with
  | [] => none
  | x :: xs =>
    some ((heapPopSmallest x xs).1.request,
      { q with heap := (heapPopSmallest x xs).2, total_dequeued := q.total_dequeued + 1 })

/-- Put a whole list of items, in order. -/
def pqPutAll (items : List PrioritizedRequestM) (q : AsyncPriorityQueueM) :
    AsyncPriorityQueueM :=
  items.foldl (fun q i => pqPut i q) q

/-- Drain the queue with consecutive gets until empty, collecting the popped
entries in order. -/
def pqDrain (q : AsyncPriorityQueueM) : List PrioritizedRequestM := drainHeap q.heap

theorem pqPutAll_heap (items : List PrioritizedRequestM) (q : AsyncPriorityQueueM) :
    (pqPutAll items q).heap = q.heap ++ items := by
  induction items generalizing q with
  | nil => simp [pqPutAll]
  | cons i rest ih =>
      rw [pqPutAll, List.foldl_cons]
      have := ih (pqPut i q)
      rw [pqPutAll] at this
      rw [this]
      simp [pqPut]

/-- C7: for every multiset of prioritized requests put into the queue and
then fully drained by consecutive gets with no interleaved puts, the
dequeued sequence is non-decreasing in priority, and within each group of
equal priority the enqueue timestamps are non-decreasing. -/
theorem c7_priority_drain_sorted (items : List PrioritizedRequestM) :
    List.Pairwise
      (fun a b => a.priority ≤ b.priority ∧
        (a.priority = b.priority → a.timestamp ≤ b.timestamp))
      (pqDrain (pqPutAll items
        { heap := [], total_enqueued := 0, total_dequeued := 0 })) := by
  have hheap := pqPutAll_heap items { heap := [], total_enqueued := 0, total_dequeued := 0 }
  rw [pqDrain, hheap]
  simp only [List.nil_append]
  refine (drainHeap_sorted items).imp ?_
  intro a b hab
  rcases hab with h | ⟨h1, h2⟩
  · exact ⟨h.le, fun he => absurd he (by omega)⟩
  · exact ⟨h1.le, fun _ => h2⟩

/-! ## Memory controller

Embedding of `python/models/memory_controller.py` (class `MemoryController`).
The MLX Metal memory readings are an oracle argument: `none` models a raised
exception in `mx.metal.get_*_memory`, `some (active, peak, cache)` models a
successful read (in GB). -/

/-- GPU memory snapshot, from the `MemoryStats` dataclass (lines 49-60). -/
structure MemoryStats where
  active_memory_gb : ℚ
  peak_memory_gb : ℚ
  cache_memory_gb : ℚ
  utilization : ℚ
  timestamp : ℚ
deriving DecidableEq

/-- Mutable state of `MemoryController` (`__init__`, lines 90-127). -/
structure MemoryController where
  mlx_available : Bool
  max_memory_utilization : ℚ
  min_batch_size : ℤ
  max_batch_size : ℤ
  sampling_window : ℕ
  current_memory_limit : ℤ
  sample_count : ℕ
  memory_history : List MemoryStats
  max_history_size : ℕ
  oom_prevention_count : ℕ
  scale_up_count : ℕ

/-- Fallback snapshot used when MLX is unavailable or the stats read fails
(lines 136-145 and 164-174): utilization is the "neutral" 0.5. -/
def fallbackStats (now : ℚ) : MemoryStats :=
  { active_memory_gb := 0, peak_memory_gb := 16, cache_memory_gb := 0,
    utilization := 1/2, timestamp := now }

/-- Embedding of `get_memory_stats` (lines 129-174).  A failed or unavailable
backend read yields the fallback snapshot; a zero or negative peak also maps
utilization to 0.5 (the `if peak > 0` guard, line 155). -/
def MemoryController.get_memory_stats (now : ℚ) (reading : Option (ℚ × ℚ × ℚ))
    (m : MemoryController) : MemoryStats :=
  if m.mlx_available = false then fallbackStats now
  else
    match reading with
    | none => fallbackStats now
    | some (active, peak, cache) =>
        { active_memory_gb := active, peak_memory_gb := peak, cache_memory_gb := cache,
          utilization := if peak > 0 then active / peak else 1/2, timestamp := now }

/-- Embedding of `should_sample` (lines 176-184): increment the counter and
report whether it hit a multiple of the sampling window. -/
def MemoryController.should_sample (m : MemoryController) : MemoryController × Bool :=
  let m1 := { m with sample_count := m.sample_count + 1 }
  (m1, m1.sample_count % m1.sampling_window == 0)

/-- Embedding of `get_max_batch_size` (lines 186-246): between samples return
the cached limit; on a sampling iteration read the stats, append them to the
bounded history, and move the limit according to the utilization policy. -/
def MemoryController.get_max_batch_size (now : ℚ) (reading : Option (ℚ × ℚ × ℚ))
    (current_batch_size : ℤ) (m : MemoryController) : MemoryController × ℤ :=
  let sres := m.should_sample
  let m1 := sres.1
  if sres.2 = false then (m1, m1.current_memory_limit)
  else
    let stats := m1.get_memory_stats now reading
    let hist0 := m1.memory_history ++ [stats]
    let hist := if hist0.length > m1.max_history_size then
                  hist0.drop (hist0.length - m1.max_history_size)
                else hist0
    let m2 := { m1 with memory_history := hist }
    let old_limit := m2.current_memory_limit
    if stats.utilization > m2.max_memory_utilization then
      let new_limit := max m2.min_batch_size (current_batch_size - 1)
      let m3 := if new_limit < old_limit then
                  { m2 with oom_prevention_count := m2.oom_prevention_count + 1 }
                else m2
      ({ m3 with current_memory_limit := new_limit }, new_limit)
    else if stats.utilization < m2.max_memory_utilization - 15/100 then
      let new_limit := min m2.max_batch_size (old_limit + 2)
      let m3 := if new_limit > old_limit then
                  { m2 with scale_up_count := m2.scale_up_count + 1 }
                else m2
      ({ m3 with current_memory_limit := new_limit }, new_limit)
    else
      ({ m2 with current_memory_limit := old_limit }, old_limit)

/-- Controller state for the C1 scenario: default configuration
(`max_memory_utilization = 0.85`, bounds 1..32, window 5), MLX unavailable,
memory cap previously shrunk to 16, and the next call lands on a sampling
iteration (`sample_count = 4`, so the increment reaches 5). -/
def c1_controller : MemoryController :=
  { mlx_available := false, max_memory_utilization := 85/100, min_batch_size := 1,
    max_batch_size := 32, sampling_window := 5, current_memory_limit := 16,
    sample_count := 4, memory_history := [], max_history_size := 100,
    oom_prevention_count := 0, scale_up_count := 0 }

/-- C1: the spec (and the source comments, lines 138-143 and 154-172 of
`memory_controller.py`) say the 0.5 fallback utilization is neutral, so the
memory cap must not move.  Evaluating the embedded code at the failing input
shows otherwise: on a sampling iteration with fallback utilization 0.5 and
the default `max_memory_utilization = 0.85`, the scale-up branch fires
(`0.5 < 0.85 − 0.15`) and the cap grows from 16 to 18. -/
theorem c1_fallback_half_scales_up :
    (c1_controller.get_memory_stats 0 none).utilization = 1/2 ∧
    (c1_controller.get_max_batch_size 0 none 16).2 = 18 ∧
    (c1_controller.get_max_batch_size 0 none 16).2 ≠ c1_controller.current_memory_limit := by
  refine ⟨by norm_num [MemoryController.get_memory_stats, fallbackStats, c1_controller], ?_, ?_⟩ <;>
    norm_num [MemoryController.get_max_batch_size, MemoryController.should_sample,
      MemoryController.get_memory_stats, fallbackStats, c1_controller]

/-! ## Metrics collector

Embedding of the latency-percentile path of
`python/models/metrics_collector.py` (class `MetricsCollector`).  The locking
and dirty-flag caching do not change the returned values and are not part of
the embedding; `get_latency_metrics` is the pure function of the current
sample snapshot. -/

/-- Latency snapshot (`LatencyMetrics` dataclass, lines 32-42). -/
structure LatencyMetricsM where
  p50_ms : ℚ
  p95_ms : ℚ
  p99_ms : ℚ
  min_ms : ℚ
  max_ms : ℚ
  mean_ms : ℚ
  count : ℕ

/-- List indexing `l[i]` as used on the sorted snapshot (always in bounds in
the source; 0 as the irrelevant out-of-bounds default). -/
def nthD : List ℚ → ℕ → ℚ
  | [], _ => 0
  | x :: _, 0 => x
  | _ :: xs, i + 1 => nthD xs i

/-- Python `max(xs)` over a nonempty list. -/
def pyMax : List ℚ → ℚ
  | [] => 0
  | x :: xs => xs.foldl max x

/-- Python `min(xs)` over a nonempty list. -/
def pyMin : List ℚ → ℚ
  | [] => 0
  | x :: xs => xs.foldl min x

/-- Embedding of the static `_percentile` (lines 542-567): linear
interpolation at rank `(p / 100) · (n − 1)` over already-sorted data. -/
def percentileM (sorted_data : List ℚ) (p : ℕ) : ℚ :=
  if sorted_data = [] then 0
  else if sorted_data.length = 1 then sorted_data.headI
  else
    nthD sorted_data (ratFloorNat (((p : ℚ) / 100) * ((sorted_data.length : ℚ) - 1))) +
      (((p : ℚ) / 100) * ((sorted_data.length : ℚ) - 1) -
          (ratFloorNat (((p : ℚ) / 100) * ((sorted_data.length : ℚ) - 1)) : ℚ)) *
        (nthD sorted_data
            (min (ratFloorNat (((p : ℚ) / 100) * ((sorted_data.length : ℚ) - 1)) + 1)
              (sorted_data.length - 1)) -
          nthD sorted_data (ratFloorNat (((p : ℚ) / 100) * ((sorted_data.length : ℚ) - 1))))

/-- Embedding of `get_latency_metrics` (lines 226-270): percentiles by linear
interpolation over a sorted copy of the snapshot; min, max, mean and count
over the snapshot itself.  Python `sorted` is a correct stable sort, which on
rational values coincides extensionally with insertion sort. -/
def get_latency_metrics (samples : List ℚ) : LatencyMetricsM :=
  if samples = [] then
    { p50_ms := 0, p95_ms := 0, p99_ms := 0, min_ms := 0, max_ms := 0, mean_ms := 0, count := 0 }
  else
    let latencies_sorted := samples.insertionSort (· ≤ ·)
    let count := latencies_sorted.length
    { p50_ms := percentileM latencies_sorted 50,
      p95_ms := percentileM latencies_sorted 95,
      p99_ms := percentileM latencies_sorted 99,
      min_ms := pyMin samples,
      max_ms := pyMax samples,
      mean_ms := samples.sum / (count : ℚ),
      count := count }

theorem nthD_mem (l : List ℚ) (i : ℕ) (h : i < l.length) : nthD l i ∈ l := by
  induction l generalizing i with
  | nil => simp at h
  | cons x xs ih =>
      cases i with
      | zero => exact List.mem_cons_self _ _
      | succ j => exact List.mem_cons_of_mem _ (ih j (by simpa using h))

theorem sorted_nthD_mono (l : List ℚ) (hs : l.Sorted (· ≤ ·)) {i j : ℕ}
    (hij : i ≤ j) (hj : j < l.length) : nthD l i ≤ nthD l j := by
  induction l generalizing i j with
  | nil => simp at hj
  | cons x xs ih =>
      cases i with
      | zero =>
          cases j with
          | zero => exact le_refl _
          | succ j2 =>
              have hmem := nthD_mem xs j2 (by simpa using hj)
              exact List.rel_of_sorted_cons hs _ hmem
      | succ i2 =>
          cases j with
          | zero => omega
          | succ j2 => exact ih hs.of_cons (by omega) (by simpa using hj)

theorem le_foldl_max (b : ℚ) (l : List ℚ) : b ≤ l.foldl max b := by
  induction l generalizing b with
  | nil => simp
  | cons x xs ih => exact le_trans (le_max_left b x) (ih (max b x))

theorem mem_le_foldl_max (y b : ℚ) (l : List ℚ) (h : y ∈ l) : y ≤ l.foldl max b := by
  induction l generalizing b with
  | nil => simp at h
  | cons x xs ih =>
      rcases List.mem_cons.mp h with rfl | h2
      · exact le_trans (le_max_right b y) (le_foldl_max _ xs)
      · exact ih _ h2

theorem le_pyMax (y : ℚ) (l : List ℚ) (h : y ∈ l) : y ≤ pyMax l := by
  cases l with
  | nil => simp at h
  | cons x xs =>
      rcases List.mem_cons.mp h with rfl | h2
      · exact le_foldl_max _ _
      · exact mem_le_foldl_max _ _ _ h2

theorem ratFloorNat_le (q : ℚ) (h : 0 ≤ q) : (ratFloorNat q : ℚ) ≤ q := by
  have h1 := ratFloorNat_eq_floor q h
  have h2 : ((ratFloorNat q : ℤ) : ℚ) ≤ q := by rw [h1]; exact Int.floor_le q
  exact_mod_cast h2

theorem lt_ratFloorNat_add_one (q : ℚ) (h : 0 ≤ q) : q < (ratFloorNat q : ℚ) + 1 := by
  have h1 := ratFloorNat_eq_floor q h
  have h2 : q < ((ratFloorNat q : ℤ) : ℚ) + 1 := by rw [h1]; exact Int.lt_floor_add_one q
  exact_mod_cast h2

theorem ratFloorNat_mono {a b : ℚ} (h0 : 0 ≤ a) (hab : a ≤ b) :
    ratFloorNat a ≤ ratFloorNat b := by
  have h0b : 0 ≤ b := le_trans h0 hab
  have h1 : (ratFloorNat a : ℤ) ≤ (ratFloorNat b : ℤ) := by
    rw [ratFloorNat_eq_floor a h0, ratFloorNat_eq_floor b h0b]
    exact Int.floor_le_floor hab
  exact_mod_cast h1

theorem ratFloorNat_le_of_le_nat (q : ℚ) (m : ℕ) (h0 : 0 ≤ q) (h : q ≤ (m : ℚ)) :
    ratFloorNat q ≤ m := by
  have h1 : (ratFloorNat q : ℤ) ≤ (m : ℤ) := by
    rw [ratFloorNat_eq_floor q h0]
    exact le_trans (Int.floor_le_floor h) (by simp)
  exact_mod_cast h1

theorem interp_mono (l : List ℚ) (hs : l.Sorted (· ≤ ·)) (hn2 : 2 ≤ l.length)
    (ra rb : ℚ) (h0 : 0 ≤ ra) (hab : ra ≤ rb) (hb : rb ≤ (l.length : ℚ) - 1) :
    nthD l (ratFloorNat ra) +
        (ra - (ratFloorNat ra : ℚ)) *
          (nthD l (min (ratFloorNat ra + 1) (l.length - 1)) - nthD l (ratFloorNat ra)) ≤
      nthD l (ratFloorNat rb) +
        (rb - (ratFloorNat rb : ℚ)) *
          (nthD l (min (ratFloorNat rb + 1) (l.length - 1)) - nthD l (ratFloorNat rb)) := by
  have h0b : 0 ≤ rb := le_trans h0 hab
  have hcast : ((l.length - 1 : ℕ) : ℚ) = (l.length : ℚ) - 1 := by
    rw [Nat.cast_sub (by omega : 1 ≤ l.length)]
    simp
  have hlb_le : ratFloorNat rb ≤ l.length - 1 :=
    ratFloorNat_le_of_le_nat _ _ h0b (by rw [hcast]; exact hb)
  have hla_le_lb : ratFloorNat ra ≤ ratFloorNat rb := ratFloorNat_mono h0 hab
  have hla_le : ratFloorNat ra ≤ l.length - 1 := le_trans hla_le_lb hlb_le
  have hfa0 : 0 ≤ ra - (ratFloorNat ra : ℚ) := by
    have := ratFloorNat_le ra h0; linarith
  have hfa1 : ra - (ratFloorNat ra : ℚ) < 1 := by
    have := lt_ratFloorNat_add_one ra h0; linarith
  have hfb0 : 0 ≤ rb - (ratFloorNat rb : ℚ) := by
    have := ratFloorNat_le rb h0b; linarith
  have h_lo_up_a : nthD l (ratFloorNat ra) ≤
      nthD l (min (ratFloorNat ra + 1) (l.length - 1)) :=
    sorted_nthD_mono l hs (by omega) (by omega)
  have h_lo_up_b : nthD l (ratFloorNat rb) ≤
      nthD l (min (ratFloorNat rb + 1) (l.length - 1)) :=
    sorted_nthD_mono l hs (by omega) (by omega)
  rcases eq_or_lt_of_le hla_le_lb with heq | hlt
  · rw [← heq]
    have hprod : 0 ≤ (rb - ra) *
        (nthD l (min (ratFloorNat ra + 1) (l.length - 1)) - nthD l (ratFloorNat ra)) :=
      mul_nonneg (by linarith) (by linarith)
    have hfrac : rb - (ratFloorNat ra : ℚ) = (rb - ra) + (ra - (ratFloorNat ra : ℚ)) := by ring
    nlinarith [hprod]
  · have hua_le_lb : min (ratFloorNat ra + 1) (l.length - 1) ≤ ratFloorNat rb := by omega
    have h1 : nthD l (min (ratFloorNat ra + 1) (l.length - 1)) ≤ nthD l (ratFloorNat rb) :=
      sorted_nthD_mono l hs hua_le_lb (by omega)
    have hprod1 : 0 ≤ (1 - (ra - (ratFloorNat ra : ℚ))) *
        (nthD l (min (ratFloorNat ra + 1) (l.length - 1)) - nthD l (ratFloorNat ra)) :=
      mul_nonneg (by linarith) (by linarith)
    have hprod2 : 0 ≤ (rb - (ratFloorNat rb : ℚ)) *
        (nthD l (min (ratFloorNat rb + 1) (l.length - 1)) - nthD l (ratFloorNat rb)) :=
      mul_nonneg hfb0 (by linarith)
    nlinarith [hprod1, hprod2]

theorem interp_le_last (l : List ℚ) (hs : l.Sorted (· ≤ ·)) (hn2 : 2 ≤ l.length)
    (r : ℚ) (h0 : 0 ≤ r) (hr : r ≤ (l.length : ℚ) - 1) :
    nthD l (ratFloorNat r) +
        (r - (ratFloorNat r : ℚ)) *
          (nthD l (min (ratFloorNat r + 1) (l.length - 1)) - nthD l (ratFloorNat r)) ≤
      nthD l (l.length - 1) := by
  have hcast : ((l.length - 1 : ℕ) : ℚ) = (l.length : ℚ) - 1 := by
    rw [Nat.cast_sub (by omega : 1 ≤ l.length)]
    simp
  have hl_le : ratFloorNat r ≤ l.length - 1 :=
    ratFloorNat_le_of_le_nat _ _ h0 (by rw [hcast]; exact hr)
  have hf0 : 0 ≤ r - (ratFloorNat r : ℚ) := by
    have := ratFloorNat_le r h0; linarith
  have hf1 : r - (ratFloorNat r : ℚ) < 1 := by
    have := lt_ratFloorNat_add_one r h0; linarith
  have h_lo_up : nthD l (ratFloorNat r) ≤
      nthD l (min (ratFloorNat r + 1) (l.length - 1)) :=
    sorted_nthD_mono l hs (by omega) (by omega)
  have h_up_last : nthD l (min (ratFloorNat r + 1) (l.length - 1)) ≤ nthD l (l.length - 1) :=
    sorted_nthD_mono l hs (by omega) (by omega)
  have hprod : 0 ≤ (1 - (r - (ratFloorNat r : ℚ))) *
      (nthD l (min (ratFloorNat r + 1) (l.length - 1)) - nthD l (ratFloorNat r)) :=
    mul_nonneg (by linarith) (by linarith)
  nlinarith [hprod]

theorem rank_nonneg (p n : ℕ) (hn2 : 2 ≤ n) : 0 ≤ ((p : ℚ) / 100) * ((n : ℚ) - 1) := by
  have h1 : (0:ℚ) ≤ (p : ℚ) / 100 := by positivity
  have h2 : (1:ℚ) ≤ (n : ℚ) := by exact_mod_cast Nat.one_le_of_lt hn2
  nlinarith

theorem rank_mono (a b n : ℕ) (hab : a ≤ b) (hn2 : 2 ≤ n) :
    ((a : ℚ) / 100) * ((n : ℚ) - 1) ≤ ((b : ℚ) / 100) * ((n : ℚ) - 1) := by
  have h2 : (1:ℚ) ≤ (n : ℚ) := by exact_mod_cast Nat.one_le_of_lt hn2
  have h3 : ((a : ℚ) / 100) ≤ ((b : ℚ) / 100) := by
    apply div_le_div_of_nonneg_right ?_ (by norm_num)
    exact_mod_cast hab
  nlinarith

theorem rank_le_len (p n : ℕ) (hp : p ≤ 100) (hn2 : 2 ≤ n) :
    ((p : ℚ) / 100) * ((n : ℚ) - 1) ≤ (n : ℚ) - 1 := by
  have h2 : (1:ℚ) ≤ (n : ℚ) := by exact_mod_cast Nat.one_le_of_lt hn2
  have h3 : ((p : ℚ) / 100) ≤ 1 := by
    rw [div_le_one (by norm_num)]
    exact_mod_cast hp
  nlinarith

theorem percentileM_mono (l : List ℚ) (hs : l.Sorted (· ≤ ·)) (a b : ℕ)
    (hab : a ≤ b) (hb100 : b ≤ 100) : percentileM l a ≤ percentileM l b := by
  unfold percentileM
  split_ifs with hnil h1
  · exact le_refl _
  · exact le_refl _
  · have hn2 : 2 ≤ l.length := by
      have := List.length_pos.mpr hnil
      omega
    exact interp_mono l hs hn2 _ _ (rank_nonneg a l.length hn2)
      (rank_mono a b l.length hab hn2) (rank_le_len b l.length hb100 hn2)

theorem percentileM_le_last (l : List ℚ) (hs : l.Sorted (· ≤ ·)) (p : ℕ)
    (hp : p ≤ 100) (hnil : l ≠ []) : percentileM l p ≤ nthD l (l.length - 1) := by
  unfold percentileM
  split_ifs with h0 h1
  · exact absurd h0 hnil
  · cases l with
    | nil => exact absurd rfl hnil
    | cons x xs =>
        cases xs with
        | nil => exact le_refl _
        | cons y ys => simp at h1
  · have hn2 : 2 ≤ l.length := by
      have := List.length_pos.mpr hnil
      omega
    exact interp_le_last l hs hn2 _ (rank_nonneg p l.length hn2)
      (rank_le_len p l.length hp hn2)

/-- C9: for every nonempty sample set, the latency snapshot returned by
`get_latency_metrics` satisfies p50 ≤ p95 ≤ p99 ≤ max, the percentiles
being linear interpolations over the sorted copy of the samples. -/
theorem c9_percentile_order (samples : List ℚ) (h : samples ≠ []) :
    (get_latency_metrics samples).p50_ms ≤ (get_latency_metrics samples).p95_ms ∧
    (get_latency_metrics samples).p95_ms ≤ (get_latency_metrics samples).p99_ms ∧
    (get_latency_metrics samples).p99_ms ≤ (get_latency_metrics samples).max_ms := by
  unfold get_latency_metrics
  rw [if_neg h]
  dsimp only
  have hs := List.sorted_insertionSort (· ≤ ·) samples
  have hnil : samples.insertionSort (· ≤ ·) ≠ [] := by
    intro he
    apply h
    have := List.perm_insertionSort (· ≤ ·) samples
    rw [he] at this
    exact this.symm.eq_nil
  refine ⟨percentileM_mono _ hs 50 95 (by omega) (by omega),
          percentileM_mono _ hs 95 99 (by omega) (by omega), ?_⟩
  have hlast := percentileM_le_last _ hs 99 (by omega) hnil
  refine le_trans hlast ?_
  have hmem : nthD (samples.insertionSort (· ≤ ·)) ((samples.insertionSort (· ≤ ·)).length - 1)
      ∈ samples.insertionSort (· ≤ ·) := by
    apply nthD_mem
    have := List.length_pos.mpr hnil
    omega
  have hmem2 : nthD (samples.insertionSort (· ≤ ·)) ((samples.insertionSort (· ≤ ·)).length - 1)
      ∈ samples := (List.perm_insertionSort (· ≤ ·) samples).subset hmem
  exact le_pyMax _ _ hmem2

/-- Witness for C9 at a concrete nonempty sample list. -/
theorem c9_witness :
    (get_latency_metrics [3, 1, 2]).p50_ms ≤ (get_latency_metrics [3, 1, 2]).p95_ms ∧
    (get_latency_metrics [3, 1, 2]).p95_ms ≤ (get_latency_metrics [3, 1, 2]).p99_ms ∧
    (get_latency_metrics [3, 1, 2]).p99_ms ≤ (get_latency_metrics [3, 1, 2]).max_ms :=
  c9_percentile_order [3, 1, 2] (by decide)

/-! ## Continuous batcher

Embedding of the per-step token path of
`python/models/continuous_batcher.py` (`_generate_batch_step_sync`, lines
466-571, and `_remove_finished`, lines 573-641).  The model forward pass,
sampling and token decode are opaque backend calls, so each request consumes
an oracle `StepOutcome` per step; token emission and completion callbacks are
side effects with no bearing on the request state and are elided. -/

/-- Python float value of the temperature field: NaN, infinities, or a
finite value (embedded as a rational). -/
inductive PyFloat where
  | nan : PyFloat
  | inf : PyFloat
  | ninf : PyFloat
  | fin : ℚ → PyFloat
deriving DecidableEq

/-- IEEE-754 strict less-than on Python floats: every comparison involving
NaN is false. -/
def PyFloat.lt : PyFloat → PyFloat → Bool
  | .nan, _ => false
  | _, .nan => false
  | .ninf, .ninf => false
  | .ninf, _ => true
  | _, .ninf => false
  | .inf, _ => false
  | .fin _, .inf => true
  | .fin a, .fin b => decide (a < b)

/-- Dataclass `BatchRequest` (`python/models/batch_generator.py`, lines
38-65). -/
structure BatchRequestM where
  request_id : String
  prompt : String
  prompt_tokens : List ℕ
  max_tokens : ℕ
  temperature : PyFloat
  top_p : ℚ
  stream_id : String
  generated_tokens : List ℕ
  generated_text : String
  is_finished : Bool
  finish_reason : Option String
  started_at : ℚ
  first_token_at : Option ℚ
  timeout_ms : Option ℚ
deriving DecidableEq

/-- Temperature sanitization of `_generate_batch_step_sync` (lines 505-511):
`if not (0 < temp < 100): temp = 1.0`.  The chained comparison is false for
NaN, infinities, zero, negative and out-of-range values, so all of them fall
back to 1.0; the request field itself is only read, never written. -/
def sanitizeTemperature (t : PyFloat) : PyFloat :=
  if ((PyFloat.fin 0).lt t && t.lt (PyFloat.fin 100)) = true then t else PyFloat.fin 1

/-- Divisor actually applied to the logits (line 512):
`max(temp, 1e-8)` over the sanitized temperature, which is always finite
(the unreachable non-finite arm yields 1). -/
def temperatureDivisor (t : PyFloat) : ℚ :=
  match sanitizeTemperature t with
  | .fin q => max q (1/100000000)
  | _ => 1

/-- One request paired with its own last-position logits row
(`logits[i, -1, :]`). -/
structure TempSlice where
  req : BatchRequestM
  logits : List ℚ
deriving DecidableEq

/-- Per-request temperature application (lines 499-512): the request's own
logits row is divided componentwise by its sanitized divisor; the request
record is unchanged. -/
def applyTemperatureReq (s : TempSlice) : TempSlice :=
  { s with logits := s.logits.map (fun v => v / temperatureDivisor s.req.temperature) }

/-- Temperature phase of the loop over `active_batch`: requests are
processed one by one, each with its own slice. -/
def applyTemperatureBatch : List TempSlice → List TempSlice
  | [] => []
  | s :: rest => applyTemperatureReq s :: applyTemperatureBatch rest

/-- Oracle for one request in one generation step: the sampling may raise
(outer except, lines 561-569), or it produces a token whose decode may fail
(lines 530-548). -/
inductive StepOutcome where
  | sampleError : StepOutcome
  | sampled : ℕ → Bool → StepOutcome
deriving DecidableEq

/-- One request's share of `_generate_batch_step_sync` (lines 497-571):
returns the updated request and whether it was appended to `finished_ids`.
The sampled token is appended before the decode, EOS and length checks, and
the loop never tests `is_finished`, so an already-finished request still in
`active_batch` (for example one cancelled while active) is stepped like any
other. -/
def stepRequest (now : ℚ) (eos_token_id : Option ℕ) (o : StepOutcome)
    (r : BatchRequestM) : BatchRequestM × Bool :=
  match o with
  | .sampleError =>
      ({ r with is_finished := true, finish_reason := some "error" }, true)
  | .sampled token_id decode_ok =>
      let r1 := { r with
        first_token_at := some (r.first_token_at.getD now),
        generated_tokens := r.generated_tokens ++ [token_id] }
      if decode_ok = false then
        ({ r1 with is_finished := true, finish_reason := some "error" }, true)
      else if eos_token_id = some token_id then
        ({ r1 with is_finished := true, finish_reason := some "eos" }, true)
      else if r.max_tokens ≤ r1.generated_tokens.length then
        ({ r1 with is_finished := true, finish_reason := some "length" }, true)
      else (r1, false)

/-- Whole-batch step: each active request consumes its own oracle outcome;
the collected `finished_ids` are returned alongside the updated batch. -/
def stepBatch (now : ℚ) (eos : Option ℕ) :
    List StepOutcome → List BatchRequestM → List BatchRequestM × List String
  | o :: os, r :: rs =>
      ((stepRequest now eos o r).1 :: (stepBatch now eos os rs).1,
       if (stepRequest now eos o r).2 then
         (stepRequest now eos o r).1.request_id :: (stepBatch now eos os rs).2
       else (stepBatch now eos os rs).2)
  | _, [] => ([], [])
  | [], _ :: _ => ([], [])

/-- Embedding of `_remove_finished`, line 638-641: the requests whose id is
in `finished_ids` leave `active_batch`. -/
def removeFinished (finished_ids : List String) (batch : List BatchRequestM) :
    List BatchRequestM :=
  batch.filter (fun r => decide (r.request_id ∉ finished_ids))

/-- One iteration of the batch loop after the fill phase: a generation step
followed by removal of the requests it finished. -/
def loopStep (now : ℚ) (eos : Option ℕ) (os : List StepOutcome)
    (batch : List BatchRequestM) : List BatchRequestM :=
  removeFinished (stepBatch now eos os batch).2 (stepBatch now eos os batch).1

/-- Iterated batch loop over a list of steps (time stamp and oracle list per
step). -/
def runLoop (eos : Option ℕ) : List (ℚ × List StepOutcome) → List BatchRequestM →
    List BatchRequestM
  | [], batch => batch
  | (now, os) :: rest, batch => runLoop eos rest (loopStep now eos os batch)

/-- A request that a step may legitimately process: not yet finished, with
room left under its token budget. -/
def activeOk (r : BatchRequestM) : Prop :=
  r.is_finished = false ∧ r.generated_tokens.length < r.max_tokens

theorem stepRequest_len (now : ℚ) (eos : Option ℕ) (o : StepOutcome) (r : BatchRequestM)
    (h : activeOk r) :
    (stepRequest now eos o r).1.generated_tokens.length ≤ (stepRequest now eos o r).1.max_tokens := by
  obtain ⟨h1, h2⟩ := h
  cases o with
  | sampleError => exact le_of_lt h2
  | sampled token_id decode_ok =>
      unfold stepRequest
      dsimp only
      split_ifs <;>
        (simp only [List.length_append, List.length_cons, List.length_nil]; omega)

theorem stepRequest_active (now : ℚ) (eos : Option ℕ) (o : StepOutcome) (r : BatchRequestM)
    (h : activeOk r) (hfin : (stepRequest now eos o r).2 = false) :
    activeOk (stepRequest now eos o r).1 := by
  obtain ⟨h1, h2⟩ := h
  cases o with
  | sampleError => simp [stepRequest] at hfin
  | sampled token_id decode_ok =>
      unfold stepRequest at hfin ⊢
      dsimp only at hfin ⊢
      split_ifs at hfin ⊢ with ha hb hc
      dsimp only
      exact ⟨h1, by simp only [List.length_append, List.length_cons, List.length_nil] at hc ⊢; omega⟩

theorem stepBatch_len (now : ℚ) (eos : Option ℕ) (os : List StepOutcome)
    (b : List BatchRequestM) (h : ∀ r ∈ b, activeOk r) :
    ∀ r2 ∈ (stepBatch now eos os b).1,
      r2.generated_tokens.length ≤ r2.max_tokens := by
  induction os generalizing b with
  | nil =>
      intro r2 hr2
      cases b <;> simp [stepBatch] at hr2
  | cons o os ih =>
      intro r2 hr2
      cases b with
      | nil => simp [stepBatch] at hr2
      | cons r rs =>
          rw [stepBatch] at hr2
          rcases List.mem_cons.mp hr2 with rfl | hr2
          · exact stepRequest_len now eos o r (h r (List.mem_cons_self _ _))
          · exact ih rs (fun x hx => h x (List.mem_cons_of_mem _ hx)) r2 hr2

theorem stepBatch_surviving_active (now : ℚ) (eos : Option ℕ) (os : List StepOutcome)
    (b : List BatchRequestM) (h : ∀ r ∈ b, activeOk r) :
    ∀ r2 ∈ (stepBatch now eos os b).1,
      r2.request_id ∉ (stepBatch now eos os b).2 → activeOk r2 := by
  induction os generalizing b with
  | nil =>
      intro r2 hr2
      cases b <;> simp [stepBatch] at hr2
  | cons o os ih =>
      intro r2 hr2 hid
      cases b with
      | nil => simp [stepBatch] at hr2
      | cons r rs =>
          rw [stepBatch] at hr2 hid
          rcases List.mem_cons.mp hr2 with rfl | hr2
          · by_cases hf : (stepRequest now eos o r).2 = true
            · rw [if_pos hf] at hid
              exact absurd (List.mem_cons_self _ _) hid
            · exact stepRequest_active now eos o r (h r (List.mem_cons_self _ _))
                (by simpa using hf)
          · refine ih rs (fun x hx => h x (List.mem_cons_of_mem _ hx)) r2 hr2 ?_
            intro hmem
            apply hid
            split_ifs
            · exact List.mem_cons_of_mem _ hmem
            · exact hmem

theorem loopStep_active (now : ℚ) (eos : Option ℕ) (os : List StepOutcome)
    (b : List BatchRequestM) (h : ∀ r ∈ b, activeOk r) :
    ∀ r2 ∈ loopStep now eos os b, activeOk r2 := by
  intro r2 hr2
  unfold loopStep removeFinished at hr2
  rw [List.mem_filter] at hr2
  obtain ⟨hmem, hdec⟩ := hr2
  have hnotin : r2.request_id ∉ (stepBatch now eos os b).2 := of_decide_eq_true hdec
  exact stepBatch_surviving_active now eos os b h r2 hmem hnotin

theorem runLoop_active (eos : Option ℕ) (steps : List (ℚ × List StepOutcome))
    (batch : List BatchRequestM) (h : ∀ r ∈ batch, activeOk r) :
    ∀ r2 ∈ runLoop eos steps batch, activeOk r2 := by
  induction steps generalizing batch with
  | nil => exact h
  | cons st rest ih =>
      obtain ⟨now, os⟩ := st
      exact ih (loopStep now eos os batch) (loopStep_active now eos os batch h)

/-- Request for the C6 counterexample: freshly admitted, `max_tokens = 0`. -/
def c6_request : BatchRequestM :=
  { request_id := "r1", prompt := "p", prompt_tokens := [1], max_tokens := 0,
    temperature := PyFloat.fin 1, top_p := 1, stream_id := "s1", generated_tokens := [],
    generated_text := "", is_finished := false, finish_reason := none, started_at := 0,
    first_token_at := none, timeout_ms := none }

/-- C6 counterexample: a request admitted with `max_tokens = 0` receives one
token in its very first generation step (the step appends the sampled token
before checking the budget), so `len(generated_tokens) ≤ max_tokens` fails
at the explicit input. -/
theorem c6_counterexample :
    ¬ ((stepRequest 0 none (StepOutcome.sampled 7 true) c6_request).1.generated_tokens.length
        ≤ c6_request.max_tokens) := by
  decide

/-- C6 (amended): for every request that enters the loop unfinished and with
`len(generated_tokens) < max_tokens` (in particular any fresh request with
`max_tokens ≥ 1`), the bound `len(generated_tokens) ≤ max_tokens` holds
after each generation step, and requests surviving the post-step removal are
again unfinished and strictly under budget; the original bound fails for
`max_tokens = 0`, and a request whose `is_finished` flag was set outside the
step (cancellation) but which stays in `active_batch` is still stepped and
still receives tokens, since the loop never tests `is_finished`. -/
theorem c6_amended_token_bound (eos : Option ℕ) (steps : List (ℚ × List StepOutcome))
    (batch : List BatchRequestM) (h : ∀ r ∈ batch, activeOk r) :
    (∀ r2 ∈ runLoop eos steps batch, activeOk r2) ∧
    (∀ (now : ℚ) (os : List StepOutcome) (b : List BatchRequestM),
      (∀ r ∈ b, activeOk r) →
      ∀ r2 ∈ (stepBatch now eos os b).1,
        r2.generated_tokens.length ≤ r2.max_tokens) :=
  ⟨runLoop_active eos steps batch h, fun now os b hb => stepBatch_len now eos os b hb⟩

/-- Witness for the amended C6 theorem: one concrete request with
`max_tokens = 2` run for one step. -/
theorem c6_witness :
    (∀ r2 ∈ runLoop none [(0, [StepOutcome.sampled 7 true])]
        [{ c6_request with max_tokens := 2 }], activeOk r2) ∧
    (∀ (now : ℚ) (os : List StepOutcome) (b : List BatchRequestM),
      (∀ r ∈ b, activeOk r) →
      ∀ r2 ∈ (stepBatch now none os b).1,
        r2.generated_tokens.length ≤ r2.max_tokens) :=
  c6_amended_token_bound none [(0, [StepOutcome.sampled 7 true])]
    [{ c6_request with max_tokens := 2 }]
    (by intro r hr; rcases List.mem_singleton.mp hr with rfl; exact ⟨rfl, by decide⟩)

/-- C10: a temperature not strictly between 0 and 100 — including exactly 0,
NaN, the infinities and negative values — makes the step divide the
request's logits by the fallback divisor 1.0; an in-range temperature t is
applied as max(t, 1e-8); the stored temperature field is never modified and
each request's slice is processed independently of its siblings. -/
theorem c10_temperature_sanitization :
    (∀ t : PyFloat, ((PyFloat.fin 0).lt t && t.lt (PyFloat.fin 100)) = false →
        temperatureDivisor t = 1) ∧
    (temperatureDivisor (PyFloat.fin 0) = 1 ∧ temperatureDivisor PyFloat.nan = 1 ∧
      temperatureDivisor PyFloat.inf = 1 ∧ temperatureDivisor PyFloat.ninf = 1 ∧
      ∀ q : ℚ, q < 0 → temperatureDivisor (PyFloat.fin q) = 1) ∧
    (∀ q : ℚ, 0 < q → q < 100 →
        temperatureDivisor (PyFloat.fin q) = max q (1/100000000)) ∧
    (∀ s : TempSlice, (applyTemperatureReq s).req = s.req ∧
        (applyTemperatureReq s).logits =
          s.logits.map (fun v => v / temperatureDivisor s.req.temperature)) ∧
    (∀ (l : List TempSlice) (s : TempSlice) (r : List TempSlice),
        applyTemperatureBatch (l ++ s :: r) =
          applyTemperatureBatch l ++ applyTemperatureReq s :: applyTemperatureBatch r) := by
  have hout : ∀ t : PyFloat, ((PyFloat.fin 0).lt t && t.lt (PyFloat.fin 100)) = false →
      temperatureDivisor t = 1 := by
    intro t ht
    unfold temperatureDivisor sanitizeTemperature
    rw [if_neg (by simp [ht])]
    dsimp only
    exact max_eq_left (by norm_num)
  refine ⟨hout, ⟨?_, ?_, ?_, ?_, ?_⟩, ?_, ?_, ?_⟩
  · exact hout _ (by decide)
  · exact hout _ (by decide)
  · exact hout _ (by decide)
  · exact hout _ (by decide)
  · intro q hq
    apply hout
    have : ¬ (0 : ℚ) < q := by linarith
    simp [PyFloat.lt, this]
  · intro q h0 h100
    unfold temperatureDivisor sanitizeTemperature
    rw [if_pos (by simp [PyFloat.lt, h0, h100])]
  · intro s
    exact ⟨rfl, rfl⟩
  · intro l s r
    induction l with
    | nil => rfl
    | cons x xs ih => simpa [applyTemperatureBatch] using ih

/-- Witness for C10 at concrete temperatures: NaN and 0 fall back to divisor
1, the in-range temperature 50 is applied as max(50, 1e-8), and applying the
temperature leaves the request record unchanged. -/
theorem c10_witness :
    temperatureDivisor PyFloat.nan = 1 ∧
    temperatureDivisor (PyFloat.fin 0) = 1 ∧
    temperatureDivisor (PyFloat.fin 50) = max 50 (1/100000000) ∧
    (applyTemperatureReq { req := c6_request, logits := [1, 2] }).req = c6_request :=
  ⟨c10_temperature_sanitization.2.1.2.1,
   c10_temperature_sanitization.2.1.1,
   c10_temperature_sanitization.2.2.1 50 (by norm_num) (by norm_num),
   (c10_temperature_sanitization.2.2.2.1 { req := c6_request, logits := [1, 2] }).1⟩

/-! ## KV cache pool

Embedding of `python/kv_cache_pool.py`.  The `OrderedDict` main map and the
`dict` prefix index are association lists in insertion order (head = oldest,
i.e. the LRU victim); SHA-256 (an external library call, truncated to 16 hex
characters) is an abstract function parameter `sha`; wall-clock reads are
explicit `now` arguments; the opaque MLX tensor blob is an id. -/

/-- Dataclass `KVCacheEntry` (lines 59-73). -/
structure KVCacheEntryM where
  prompt_hash : String
  prefix_hash : Option String
  kv_cache : ℕ
  prompt_tokens : ℕ
  created_at : ℚ
  last_used : ℚ
  use_count : ℕ
  memory_bytes : ℕ
deriving DecidableEq

/-- `KVCachePoolConfig` (lines 76-96); the statistics and logging flags do
not influence any state transition and are omitted. -/
structure KVCachePoolConfigM where
  max_size : ℕ
  ttl_seconds : ℚ
  enable_prefix_sharing : Bool
  prefix_length_ratio : ℚ
deriving DecidableEq

/-- The `stats` counter dictionary (lines 142-150). -/
structure KVStatsM where
  total_requests : ℕ
  cache_hits : ℕ
  prefix_hits : ℕ
  cache_misses : ℕ
  evictions : ℕ
  total_memory_bytes : ℤ
  ttl_evictions : ℕ
deriving DecidableEq

/-- Pool state (`__init__`, lines 127-156). -/
structure KVCachePoolM where
  config : KVCachePoolConfigM
  cache : List (String × KVCacheEntryM)
  prefix_index : List (String × List String)
  stats : KVStatsM
deriving DecidableEq

/-- Dictionary lookup on an association list. -/
def dictLookup {α : Type} (k : String) : List (String × α) → Option α
  | [] => none
  | (k2, v) :: rest => if k2 = k then some v else dictLookup k rest

/-- Dictionary assignment with `OrderedDict` semantics: an existing key is
updated in place (keeping its position), a new key is appended at the end. -/
def dictInsert {α : Type} (k : String) (v : α) : List (String × α) → List (String × α)
  | [] => [(k, v)]
  | (k2, v2) :: rest => if k2 = k then (k, v) :: rest else (k2, v2) :: dictInsert k v rest

/-- Dictionary deletion (first occurrence; the keys are kept duplicate-free
by the invariant). -/
def dictErase {α : Type} (k : String) : List (String × α) → List (String × α)
  | [] => []
  | (k2, v2) :: rest => if k2 = k then rest else (k2, v2) :: dictErase k rest

/-- Python `list.remove(x)`: drop the first occurrence, no error handling
needed by the callers in scope (they guard with try/except pass). -/
def removeFirstStr (x : String) : List String → List String
  | [] => []
  | y :: ys => if y = x then ys else y :: removeFirstStr x ys

/-- Embedding of `_compute_prompt_hash` (lines 158-168): the truncated
SHA-256 digest, abstracted as `sha`. -/
def computePromptHash (sha : String → String) (prompt : String) : String := sha prompt

/-- Embedding of `_compute_prefix_hash` (lines 170-189): hash of the first
`prefix_length_ratio` share of the prompt, only when prefix sharing is on
and the truncated length is at least 10 characters. -/
def computePrefixHash (sha : String → String) (cfg : KVCachePoolConfigM)
    (prompt : String) : Option String :=
  if cfg.enable_prefix_sharing = false then none
  else if ratFloorNat ((prompt.length : ℚ) * cfg.prefix_length_ratio) < 10 then none
  else some (sha (prompt.take (ratFloorNat ((prompt.length : ℚ) * cfg.prefix_length_ratio))))

/-- Embedding of `_is_expired` (lines 210-221). -/
def isExpired (now : ℚ) (cfg : KVCachePoolConfigM) (e : KVCacheEntryM) : Bool :=
  decide (now - e.created_at > cfg.ttl_seconds)

/-- Embedding of `_remove_entry` (lines 389-415): drop the entry from the
main map, drop its hash from its prefix list (deleting the list when it
empties), and release the accounted memory. -/
def removeEntry (h : String) (p : KVCachePoolM) : KVCachePoolM :=
  match dictLookup h p.cache with
  | none => p
  | some e =>
    let pi :=
      match e.prefix_hash with
      | none => p.prefix_index
      | some pfh =>
        match dictLookup pfh p.prefix_index with
        | none => p.prefix_index
        | some hs =>
          if removeFirstStr h hs = [] then dictErase pfh p.prefix_index
          else dictInsert pfh (removeFirstStr h hs) p.prefix_index
    { p with
      cache := dictErase h p.cache,
      prefix_index := pi,
      stats := { p.stats with
        total_memory_bytes := p.stats.total_memory_bytes - (e.memory_bytes : ℤ) } }

/-- Embedding of `_evict_lru` (lines 417-439): remove the oldest entry (the
head of the insertion-ordered map). -/
def evictLru (p : KVCachePoolM) : KVCachePoolM :=
  match p.cache with
  | [] => p
  | (lru_hash, _) :: _ =>
    let p2 := removeEntry lru_hash p
    { p2 with stats := { p2.stats with evictions := p2.stats.evictions + 1 } }

theorem removeEntry_config (h : String) (p : KVCachePoolM) :
    (removeEntry h p).config = p.config := by
  unfold removeEntry
  cases dictLookup h p.cache <;> rfl

theorem removeEntry_cache (h : String) (p : KVCachePoolM) :
    (removeEntry h p).cache = dictErase h p.cache ∨ (removeEntry h p).cache = p.cache := by
  unfold removeEntry
  cases dictLookup h p.cache with
  | none => exact Or.inr rfl
  | some e => exact Or.inl rfl

theorem evictLru_config (p : KVCachePoolM) : (evictLru p).config = p.config := by
  unfold evictLru
  cases hm : p.cache with
  | nil => rfl
  | cons kv rest =>
      obtain ⟨k, e⟩ := kv
      simp only
      rw [removeEntry_config]

theorem dictErase_length_lt (k : String) (l : List (String × KVCacheEntryM))
    (h : dictLookup k l = some v) : (dictErase k l).length < l.length := by
  induction l with
  | nil => simp [dictLookup] at h
  | cons kv rest ih =>
      obtain ⟨k2, v2⟩ := kv
      unfold dictLookup at h
      unfold dictErase
      split_ifs with he
      · simp
      · rw [if_neg he] at h
        simpa using ih h

theorem evictLru_length (p : KVCachePoolM) (h : p.cache ≠ []) :
    (evictLru p).cache.length < p.cache.length := by
  obtain ⟨⟨k, e⟩, rest, hm⟩ : ∃ kv rest, p.cache = kv :: rest := by
    cases hc : p.cache with
    | nil => exact absurd hc h
    | cons kv rest => exact ⟨kv, rest, rfl⟩
  have hl : dictLookup k p.cache = some e := by
    rw [hm]; simp [dictLookup]
  have hcache : (evictLru p).cache = dictErase k p.cache := by
    unfold evictLru
    rw [hm]
    dsimp only
    unfold removeEntry
    rw [← hm, hl]
  rw [hcache]
  exact dictErase_length_lt k p.cache hl

/-- The eviction loop at the head of `put` (lines 352-354): evict the LRU
entry while the map has reached `max_size`.  (The Python loop does not
terminate when `max_size = 0` and the map is empty; the embedding stops on
an empty map, and every theorem about `put` assumes `max_size ≥ 1`.) -/
def evictLoop (p : KVCachePoolM) : KVCachePoolM :=
  if h : p.config.max_size ≤ p.cache.length ∧ p.cache ≠ [] then evictLoop (evictLru p)
  else p
termination_by p.cache.length
decreasing_by
  exact evictLru_length p h.2

/-- Embedding of `put` (lines 319-387): compute missed hashes, evict while
the map is full, then insert the new entry (LRU-newest), account its memory
(8 bytes per prompt token, `_estimate_memory_bytes`, lines 191-208), and
append its hash under its prefix in the index.  Returns the created entry —
there is no memory budget and no refusal path in this class. -/
def putM (sha : String → String) (now : ℚ) (prompt : String) (kv : ℕ)
    (prompt_tokens : ℕ) (prompt_hash_arg prefix_hash_arg : Option String)
    (p : KVCachePoolM) : KVCachePoolM × KVCacheEntryM :=
  let prompt_hash := prompt_hash_arg.getD (computePromptHash sha prompt)
  let prefix_hash :=
    match prefix_hash_arg with
    | some v => some v
    | none =>
        if p.config.enable_prefix_sharing then computePrefixHash sha p.config prompt
        else none
  let p1 := evictLoop p
  let entry : KVCacheEntryM :=
    { prompt_hash := prompt_hash, prefix_hash := prefix_hash, kv_cache := kv,
      prompt_tokens := prompt_tokens, created_at := now, last_used := now,
      use_count := 0, memory_bytes := prompt_tokens * 8 }
  let p2 :=
    { p1 with
      cache := dictInsert prompt_hash entry p1.cache,
      stats := { p1.stats with
        total_memory_bytes := p1.stats.total_memory_bytes + (prompt_tokens * 8 : ℕ) } }
  let p3 :=
    match prefix_hash with
    | none => p2
    | some pfh =>
        { p2 with
          prefix_index :=
            dictInsert pfh ((dictLookup pfh p2.prefix_index).getD [] ++ [prompt_hash])
              p2.prefix_index }
  (p3, entry)

/-- The cache-miss tail of `get` (lines 311-317). -/
def kvMiss (p : KVCachePoolM) : KVCachePoolM × Option ℕ :=
  ({ p with stats := { p.stats with cache_misses := p.stats.cache_misses + 1 } }, none)

/-- Scan of the candidate list under a prefix hash (lines 286-309): the
first listed hash that is live in the main map and not expired wins;
expired or dangling candidates are skipped (not removed). -/
def findCandidate (now : ℚ) (cfg : KVCachePoolConfigM)
    (cache : List (String × KVCacheEntryM)) :
    List String → Option (String × KVCacheEntryM)
  | [] => none
  | c :: cs =>
    match dictLookup c cache with
    | none => findCandidate now cfg cache cs
    | some e =>
        if isExpired now cfg e then findCandidate now cfg cache cs else some (c, e)

/-- Embedding of `get` (lines 223-317): exact hit (with TTL check and
move-to-end plus usage bookkeeping), else prefix candidate scan when
sharing is enabled, else miss.  Returns the stored blob id on a hit. -/
def getM (sha : String → String) (now : ℚ) (prompt : String)
    (prompt_hash_arg prefix_hash_arg : Option String) (p : KVCachePoolM) :
    KVCachePoolM × Option ℕ :=
  let p0 := { p with stats := { p.stats with
    total_requests := p.stats.total_requests + 1 } }
  let prompt_hash := prompt_hash_arg.getD (computePromptHash sha prompt)
  let prefix_hash :=
    match prefix_hash_arg with
    | some v => some v
    | none =>
        if p0.config.enable_prefix_sharing then computePrefixHash sha p0.config prompt
        else none
  match dictLookup prompt_hash p0.cache with
  | some e =>
    if isExpired now p0.config e then
      let p1 := removeEntry prompt_hash p0
      ({ p1 with stats := { p1.stats with
          ttl_evictions := p1.stats.ttl_evictions + 1,
          cache_misses := p1.stats.cache_misses + 1 } }, none)
    else
      let p1 :=
        { p0 with
          cache := dictErase prompt_hash p0.cache ++
            [(prompt_hash, { e with last_used := now, use_count := e.use_count + 1 })],
          stats := { p0.stats with cache_hits := p0.stats.cache_hits + 1 } }
      (p1, some e.kv_cache)
  | none =>
    match prefix_hash with
    | some pfh =>
      if p0.config.enable_prefix_sharing then
        match dictLookup pfh p0.prefix_index with
        | some candidates =>
          match findCandidate now p0.config p0.cache candidates with
          | some ce =>
              let p1 :=
                { p0 with
                  cache := dictErase ce.1 p0.cache ++
                    [(ce.1, { ce.2 with last_used := now, use_count := ce.2.use_count + 1 })],
                  stats := { p0.stats with prefix_hits := p0.stats.prefix_hits + 1 } }
              (p1, some ce.2.kv_cache)
          | none => kvMiss p0
        | none => kvMiss p0
      else kvMiss p0
    | none => kvMiss p0

/-- Embedding of `cleanup_expired` (lines 455-476): collect the expired
hashes in map order, then remove each, counting TTL evictions. -/
def cleanupExpired (now : ℚ) (p : KVCachePoolM) : KVCachePoolM × ℕ :=
  let expired := (p.cache.filter (fun ce => isExpired now p.config ce.2)).map Prod.fst
  let p2 := expired.foldl
    (fun acc h =>
      let r := removeEntry h acc
      { r with stats := { r.stats with ttl_evictions := r.stats.ttl_evictions + 1 } })
    p
  (p2, expired.length)

/-- Embedding of `clear` (lines 441-453). -/
def clearM (p : KVCachePoolM) : KVCachePoolM :=
  { p with
    cache := [],
    prefix_index := [],
    stats := { p.stats with total_memory_bytes := 0 } }

/-- One public pool operation with hashes computed from the prompt (the
3-argument call shapes of the claims). -/
inductive PoolOp where
  | opPut (now : ℚ) (prompt : String) (kv : ℕ) (prompt_tokens : ℕ)
  | opGet (now : ℚ) (prompt : String)
  | opCleanup (now : ℚ)
  | opClear
deriving DecidableEq

def applyOp (sha : String → String) : PoolOp → KVCachePoolM → KVCachePoolM
  | .opPut now prompt kv tokens, p => (putM sha now prompt kv tokens none none p).1
  | .opGet now prompt, p => (getM sha now prompt none none p).1
  | .opCleanup now, p => (cleanupExpired now p).1
  | .opClear, p => clearM p

def emptyPool (cfg : KVCachePoolConfigM) : KVCachePoolM :=
  { config := cfg, cache := [], prefix_index := [],
    stats := { total_requests := 0, cache_hits := 0, prefix_hits := 0, cache_misses := 0,
               evictions := 0, total_memory_bytes := 0, ttl_evictions := 0 } }

def runOps (sha : String → String) (cfg : KVCachePoolConfigM) (ops : List PoolOp) :
    KVCachePoolM :=
  ops.foldl (fun p op => applyOp sha op p) (emptyPool cfg)

theorem dictInsert_lookup_self {α : Type} (k : String) (v : α) (l : List (String × α)) :
    dictLookup k (dictInsert k v l) = some v := by
  induction l with
  | nil => simp [dictInsert, dictLookup]
  | cons kv rest ih =>
      obtain ⟨k2, v2⟩ := kv
      unfold dictInsert
      split_ifs with he
      · simp [dictLookup, he]
      · simp [dictLookup, he, ih]

theorem dictInsert_length_le {α : Type} (k : String) (v : α) (l : List (String × α)) :
    (dictInsert k v l).length ≤ l.length + 1 := by
  induction l with
  | nil => simp [dictInsert]
  | cons kv rest ih =>
      obtain ⟨k2, v2⟩ := kv
      unfold dictInsert
      split_ifs with he
      · simp
      · simpa using Nat.succ_le_succ ih

theorem evictLoop_config (p : KVCachePoolM) : (evictLoop p).config = p.config := by
  induction p using evictLoop.induct with
  | case1 p h ih =>
      rw [evictLoop, dif_pos h]
      rw [ih, evictLru_config]
  | case2 p h =>
      rw [evictLoop, dif_neg h]

theorem evictLoop_spec (p : KVCachePoolM) :
    (evictLoop p).cache.length < p.config.max_size ∨ (evictLoop p).cache = [] := by
  induction p using evictLoop.induct with
  | case1 p h ih =>
      rw [evictLoop, dif_pos h]
      rw [evictLru_config] at ih
      exact ih
  | case2 p h =>
      rw [evictLoop, dif_neg h]
      by_cases hc : p.cache = []
      · exact Or.inr hc
      · left
        rcases not_and_or.mp h with h2 | h2
        · omega
        · exact absurd hc h2

theorem putM_fields (sha : String → String) (now : ℚ) (prompt : String) (kv : ℕ)
    (prompt_tokens : ℕ) (prompt_hash_arg prefix_hash_arg : Option String)
    (p : KVCachePoolM) :
    (putM sha now prompt kv prompt_tokens prompt_hash_arg prefix_hash_arg p).1.cache
        = dictInsert (prompt_hash_arg.getD (computePromptHash sha prompt))
            (putM sha now prompt kv prompt_tokens prompt_hash_arg prefix_hash_arg p).2
            (evictLoop p).cache ∧
    (putM sha now prompt kv prompt_tokens prompt_hash_arg prefix_hash_arg p).1.config
        = p.config ∧
    (putM sha now prompt kv prompt_tokens prompt_hash_arg prefix_hash_arg p).2.memory_bytes
        = prompt_tokens * 8 := by
  unfold putM
  dsimp only
  split
  · exact ⟨rfl, evictLoop_config p, rfl⟩
  · split
    · exact ⟨rfl, evictLoop_config p, rfl⟩
    · exact ⟨rfl, evictLoop_config p, rfl⟩

/-- C2 (amended): `put` evicts LRU entries until the size budget alone is
satisfied and then always inserts: for `max_size ≥ 1`, after any `put` the
new entry is present in the main map under its prompt hash, the map size
respects `max_size`, and the returned entry is the real cached entry with
its accounted memory of 8 bytes per prompt token — `KVCachePool` has no
memory budget and no refusal path (the "single oversize entry refused"
behavior lives in `PromptCacheManager.add_to_cache`, not in this class). -/
theorem c2_amended_put_always_caches (sha : String → String) (now : ℚ) (prompt : String)
    (kv : ℕ) (prompt_tokens : ℕ) (prompt_hash_arg prefix_hash_arg : Option String)
    (p : KVCachePoolM) (hmax : 1 ≤ p.config.max_size) :
    dictLookup (prompt_hash_arg.getD (computePromptHash sha prompt))
        (putM sha now prompt kv prompt_tokens prompt_hash_arg prefix_hash_arg p).1.cache
      = some (putM sha now prompt kv prompt_tokens prompt_hash_arg prefix_hash_arg p).2 ∧
    (putM sha now prompt kv prompt_tokens prompt_hash_arg prefix_hash_arg p).1.cache.length
      ≤ p.config.max_size ∧
    (putM sha now prompt kv prompt_tokens prompt_hash_arg prefix_hash_arg p).2.memory_bytes
      = prompt_tokens * 8 := by
  obtain ⟨hcache, hcfg, hmem⟩ :=
    putM_fields sha now prompt kv prompt_tokens prompt_hash_arg prefix_hash_arg p
  refine ⟨?_, ?_, hmem⟩
  · rw [hcache]
    exact dictInsert_lookup_self _ _ _
  · rw [hcache]
    have hlen := dictInsert_length_le (prompt_hash_arg.getD (computePromptHash sha prompt))
      (putM sha now prompt kv prompt_tokens prompt_hash_arg prefix_hash_arg p).2
      (evictLoop p).cache
    rcases evictLoop_spec p with hsp | hsp
    · omega
    · rw [hsp]
      simpa [dictInsert] using hmax

/-- Configuration and hash function for the C2 scenario. -/
def c2_cfg : KVCachePoolConfigM :=
  { max_size := 50, ttl_seconds := 300, enable_prefix_sharing := true,
    prefix_length_ratio := 3/5 }

def c2_sha : String → String := fun _ => "H"

/-- C2 counterexample: on the empty pool, a `put` of an entry whose
estimated memory is about 9.2 exabytes (2^60 prompt tokens × 8 bytes) —
larger than any conceivable memory budget — still inserts into the main map
(the map does not stay unchanged) and returns the genuinely cached entry
rather than a non-cached marker: its accounted memory is nonzero.  There is
no refusal path in `KVCachePool.put`. -/
theorem c2_counterexample :
    (putM c2_sha 0 "q" 0 1152921504606846976 none none (emptyPool c2_cfg)).1.cache ≠ [] ∧
    (putM c2_sha 0 "q" 0 1152921504606846976 none none
        (emptyPool c2_cfg)).2.memory_bytes ≠ 0 := by
  obtain ⟨hcache, hcfg, hmem⟩ :=
    putM_fields c2_sha 0 "q" 0 1152921504606846976 none none (emptyPool c2_cfg)
  have hev : evictLoop (emptyPool c2_cfg) = emptyPool c2_cfg := by
    rw [evictLoop, dif_neg]
    simp [emptyPool]
  constructor
  · rw [hcache, hev]
    simp [emptyPool, dictInsert]
  · rw [hmem]
    norm_num

/-- Witness for the amended C2 theorem: a concrete put on the empty pool
with the default configuration. -/
theorem c2_amended_witness :
    dictLookup (Option.getD none (computePromptHash c2_sha "q"))
        (putM c2_sha 0 "q" 0 5 none none (emptyPool c2_cfg)).1.cache
      = some (putM c2_sha 0 "q" 0 5 none none (emptyPool c2_cfg)).2 ∧
    (putM c2_sha 0 "q" 0 5 none none (emptyPool c2_cfg)).1.cache.length
      ≤ (emptyPool c2_cfg).config.max_size ∧
    (putM c2_sha 0 "q" 0 5 none none (emptyPool c2_cfg)).2.memory_bytes = 5 * 8 :=
  c2_amended_put_always_caches c2_sha 0 "q" 0 5 none none (emptyPool c2_cfg)
    (by decide)

theorem mem_of_dictLookup_eq_some {α : Type} {k : String} {v : α}
    {l : List (String × α)} (h : dictLookup k l = some v) : (k, v) ∈ l := by
  induction l with
  | nil => simp [dictLookup] at h
  | cons kv rest ih =>
      obtain ⟨k2, v2⟩ := kv
      unfold dictLookup at h
      split_ifs at h with he
      · obtain rfl : v2 = v := by simpa using h
        subst he
        exact List.mem_cons_self _ _
      · exact List.mem_cons_of_mem _ (ih h)

theorem dictLookup_eq_some_of_mem_nodup {α : Type} {k : String} {v : α}
    {l : List (String × α)} (hnd : (l.map Prod.fst).Nodup) (h : (k, v) ∈ l) :
    dictLookup k l = some v := by
  induction l with
  | nil => simp at h
  | cons kv rest ih =>
      obtain ⟨k2, v2⟩ := kv
      simp only [List.map_cons, List.nodup_cons] at hnd
      rcases List.mem_cons.mp h with heq | hmem
      · rw [Prod.mk.injEq] at heq
        obtain ⟨rfl, rfl⟩ := heq
        simp [dictLookup]
      · have hk2 : k2 ≠ k := by
          intro he
          subst he
          exact hnd.1 (List.mem_map_of_mem Prod.fst hmem)
        unfold dictLookup
        rw [if_neg hk2]
        exact ih hnd.2 hmem

theorem dictLookup_eq_none_iff {α : Type} (k : String) (l : List (String × α)) :
    dictLookup k l = none ↔ k ∉ l.map Prod.fst := by
  induction l with
  | nil => simp [dictLookup]
  | cons kv rest ih =>
      obtain ⟨k2, v2⟩ := kv
      unfold dictLookup
      split_ifs with he
      · subst he
        simp
      · simp only [List.map_cons, List.mem_cons, ih]
        constructor
        · intro hn hcon
          rcases hcon with hcon | hcon
          · exact he hcon.symm
          · exact hn hcon
        · intro hn hmem
          exact hn (Or.inr hmem)

theorem dictErase_sublist {α : Type} (k : String) (l : List (String × α)) :
    List.Sublist (dictErase k l) l := by
  induction l with
  | nil => simp [dictErase]
  | cons kv rest ih =>
      obtain ⟨k2, v2⟩ := kv
      unfold dictErase
      split_ifs with he
      · exact List.sublist_cons_self _ _
      · exact List.Sublist.cons₂ _ ih

theorem mem_of_mem_dictErase {α : Type} {x : String × α} {k : String}
    {l : List (String × α)} (h : x ∈ dictErase k l) : x ∈ l :=
  (dictErase_sublist k l).subset h

theorem keys_dictErase_nodup {α : Type} {k : String} {l : List (String × α)}
    (h : (l.map Prod.fst).Nodup) : ((dictErase k l).map Prod.fst).Nodup :=
  h.sublist ((dictErase_sublist k l).map Prod.fst)

theorem fst_ne_of_mem_dictErase {α : Type} {x : String × α} {k : String}
    {l : List (String × α)} (hnd : (l.map Prod.fst).Nodup)
    (h : x ∈ dictErase k l) : x.1 ≠ k := by
  induction l with
  | nil => simp [dictErase] at h
  | cons kv rest ih =>
      obtain ⟨k2, v2⟩ := kv
      simp only [List.map_cons, List.nodup_cons] at hnd
      unfold dictErase at h
      split_ifs at h with he
      · subst he
        intro hx
        exact hnd.1 (hx ▸ List.mem_map_of_mem Prod.fst h)
      · rcases List.mem_cons.mp h with rfl | hmem
        · simpa using fun hcon => he hcon
        · exact ih hnd.2 hmem

theorem mem_dictErase_of_mem_ne {α : Type} {x : String × α} {k : String}
    {l : List (String × α)} (hmem : x ∈ l) (hne : x.1 ≠ k) : x ∈ dictErase k l := by
  induction l with
  | nil => simp at hmem
  | cons kv rest ih =>
      obtain ⟨k2, v2⟩ := kv
      unfold dictErase
      split_ifs with he
      · rcases List.mem_cons.mp hmem with rfl | h2
        · exact absurd he hne
        · exact h2
      · rcases List.mem_cons.mp hmem with rfl | h2
        · exact List.mem_cons_self _ _
        · exact List.mem_cons_of_mem _ (ih h2)

theorem not_mem_keys_dictErase {α : Type} {k : String} {l : List (String × α)}
    (hnd : (l.map Prod.fst).Nodup) : k ∉ (dictErase k l).map Prod.fst := by
  intro hmem
  obtain ⟨x, hx, hfst⟩ := List.mem_map.mp hmem
  exact fst_ne_of_mem_dictErase hnd hx hfst

theorem self_mem_dictInsert {α : Type} (k : String) (v : α) (l : List (String × α)) :
    (k, v) ∈ dictInsert k v l := by
  induction l with
  | nil => simp [dictInsert]
  | cons kv rest ih =>
      obtain ⟨k2, v2⟩ := kv
      unfold dictInsert
      split_ifs with he
      · exact List.mem_cons_self _ _
      · exact List.mem_cons_of_mem _ ih

theorem mem_dictInsert_iff {α : Type} {x : String × α} {k : String} {v : α}
    {l : List (String × α)} (hnd : (l.map Prod.fst).Nodup) :
    x ∈ dictInsert k v l ↔ x = (k, v) ∨ (x ∈ l ∧ x.1 ≠ k) := by
  induction l with
  | nil =>
      simp [dictInsert]
  | cons kv rest ih =>
      obtain ⟨k2, v2⟩ := kv
      simp only [List.map_cons, List.nodup_cons] at hnd
      unfold dictInsert
      split_ifs with he
      · subst he
        constructor
        · intro hmem
          rcases List.mem_cons.mp hmem with rfl | h2
          · exact Or.inl rfl
          · refine Or.inr ⟨List.mem_cons_of_mem _ h2, ?_⟩
            intro hx
            exact hnd.1 (hx ▸ List.mem_map_of_mem Prod.fst h2)
        · intro hmem
          rcases hmem with rfl | ⟨h2, hne⟩
          · exact List.mem_cons_self _ _
          · rcases List.mem_cons.mp h2 with rfl | h3
            · exact absurd rfl hne
            · exact List.mem_cons_of_mem _ h3
      · constructor
        · intro hmem
          rcases List.mem_cons.mp hmem with rfl | h2
          · exact Or.inr ⟨List.mem_cons_self _ _, fun hcon => he hcon⟩
          · rcases (ih hnd.2).mp h2 with h3 | ⟨h3, h4⟩
            · exact Or.inl h3
            · exact Or.inr ⟨List.mem_cons_of_mem _ h3, h4⟩
        · intro hmem
          rcases hmem with rfl | ⟨h2, hne⟩
          · exact List.mem_cons_of_mem _ ((ih hnd.2).mpr (Or.inl rfl))
          · rcases List.mem_cons.mp h2 with rfl | h3
            · exact List.mem_cons_self _ _
            · exact List.mem_cons_of_mem _ ((ih hnd.2).mpr (Or.inr ⟨h3, hne⟩))

theorem keys_dictInsert_nodup {α : Type} {k : String} {v : α} {l : List (String × α)}
    (hnd : (l.map Prod.fst).Nodup) : ((dictInsert k v l).map Prod.fst).Nodup := by
  induction l with
  | nil => simp [dictInsert]
  | cons kv rest ih =>
      obtain ⟨k2, v2⟩ := kv
      simp only [List.map_cons, List.nodup_cons] at hnd
      unfold dictInsert
      split_ifs with he
      · subst he
        simp only [List.map_cons, List.nodup_cons]
        exact ⟨hnd.1, hnd.2⟩
      · simp only [List.map_cons, List.nodup_cons]
        refine ⟨?_, ih hnd.2⟩
        intro hmem
        obtain ⟨x, hx, hfst⟩ := List.mem_map.mp hmem
        rcases (mem_dictInsert_iff hnd.2).mp hx with rfl | ⟨h3, _⟩
        · exact he hfst.symm
        · exact hnd.1 (hfst ▸ List.mem_map_of_mem Prod.fst h3)

theorem removeFirstStr_sublist (x : String) (l : List String) :
    List.Sublist (removeFirstStr x l) l := by
  induction l with
  | nil => simp [removeFirstStr]
  | cons y ys ih =>
      unfold removeFirstStr
      split_ifs with he
      · exact List.sublist_cons_self _ _
      · exact List.Sublist.cons₂ _ ih

theorem mem_removeFirstStr_iff {x y : String} {l : List String} (hnd : l.Nodup) :
    y ∈ removeFirstStr x l ↔ y ∈ l ∧ y ≠ x := by
  induction l with
  | nil => simp [removeFirstStr]
  | cons z zs ih =>
      simp only [List.nodup_cons] at hnd
      unfold removeFirstStr
      split_ifs with he
      · subst he
        constructor
        · intro hmem
          refine ⟨List.mem_cons_of_mem _ hmem, ?_⟩
          intro hyx
          subst hyx
          exact hnd.1 hmem
        · intro ⟨hmem, hne⟩
          rcases List.mem_cons.mp hmem with rfl | h2
          · exact absurd rfl hne
          · exact h2
      · constructor
        · intro hmem
          rcases List.mem_cons.mp hmem with rfl | h2
          · exact ⟨List.mem_cons_self _ _, fun hcon => he hcon⟩
          · obtain ⟨h3, h4⟩ := (ih hnd.2).mp h2
            exact ⟨List.mem_cons_of_mem _ h3, h4⟩
        · intro ⟨hmem, hne⟩
          rcases List.mem_cons.mp hmem with rfl | h2
          · exact List.mem_cons_self _ _
          · exact List.mem_cons_of_mem _ ((ih hnd.2).mpr ⟨h2, hne⟩)

/-- Internal well-formedness the pool maintains while no prompt is re-put:
duplicate-free keys in both maps, and the prefix index exactly groups the
live entries by their prefix hash (nonempty duplicate-free candidate lists
whose members point back at live entries, and every entry with a prefix
listed under it). -/
def strongInv (p : KVCachePoolM) : Prop :=
  (p.cache.map Prod.fst).Nodup ∧
  (p.prefix_index.map Prod.fst).Nodup ∧
  (∀ pr ∈ p.prefix_index, pr.2 ≠ [] ∧ pr.2.Nodup ∧
      ∀ h2 ∈ pr.2, ∃ ce ∈ p.cache, ce.1 = h2 ∧ ce.2.prefix_hash = some pr.1) ∧
  (∀ ce ∈ p.cache, ∀ pfh ∈ ce.2.prefix_hash.toList,
      ∃ pr ∈ p.prefix_index, pr.1 = pfh ∧ ce.1 ∈ pr.2)

/-- The consistency property claimed for the pool: every cached entry with
a prefix hash is listed under it in the prefix index, and every hash listed
in the prefix index is a key of the main map. -/
def claimConsistent (p : KVCachePoolM) : Prop :=
  (∀ ce ∈ p.cache, ∀ pfh ∈ ce.2.prefix_hash.toList,
      ∃ pr ∈ p.prefix_index, pr.1 = pfh ∧ ce.1 ∈ pr.2) ∧
  (∀ pr ∈ p.prefix_index, ∀ h2 ∈ pr.2, ∃ ce ∈ p.cache, ce.1 = h2)

theorem strongInv_claimConsistent (p : KVCachePoolM) (h : strongInv p) :
    claimConsistent p := by
  obtain ⟨h1, h2, h3, h4⟩ := h
  refine ⟨h4, ?_⟩
  intro pr hpr hh hmem
  obtain ⟨ce, hce, hfst, _⟩ := (h3 pr hpr).2.2 hh hmem
  exact ⟨ce, hce, hfst⟩

theorem removeEntry_char (h : String) (p : KVCachePoolM) (e : KVCacheEntryM)
    (hl : dictLookup h p.cache = some e) :
    (removeEntry h p).cache = dictErase h p.cache ∧
    (removeEntry h p).prefix_index =
      (match e.prefix_hash with
       | none => p.prefix_index
       | some pfh =>
         match dictLookup pfh p.prefix_index with
         | none => p.prefix_index
         | some hs =>
           if removeFirstStr h hs = [] then dictErase pfh p.prefix_index
           else dictInsert pfh (removeFirstStr h hs) p.prefix_index) := by
  unfold removeEntry
  simp only [hl]
  exact ⟨trivial, trivial⟩

theorem removeEntry_strongInv (h : String) (p : KVCachePoolM) (hinv : strongInv p) :
    strongInv (removeEntry h p) := by
  obtain ⟨hc_nd, hi_nd, hpart3, hpart4⟩ := hinv
  cases hl : dictLookup h p.cache with
  | none =>
      unfold removeEntry
      rw [hl]
      exact ⟨hc_nd, hi_nd, hpart3, hpart4⟩
  | some e =>
    obtain ⟨hC, hP⟩ := removeEntry_char h p e hl
    have huniq : ∀ ce ∈ p.cache, ce.1 = h → ce.2 = e := by
      intro ce hce hfst
      have := dictLookup_eq_some_of_mem_nodup (k := ce.1) (v := ce.2) hc_nd
        (by simpa using hce)
      rw [hfst, hl] at this
      simpa using this.symm
    have hc_nd2 : ((dictErase h p.cache).map Prod.fst).Nodup := keys_dictErase_nodup hc_nd
    unfold strongInv
    rw [hC, hP]
    cases hpf : e.prefix_hash with
    | none =>
        dsimp only
        refine ⟨hc_nd2, hi_nd, ?_, ?_⟩
        · intro pr hpr
          obtain ⟨hne, hnd, hf⟩ := hpart3 pr hpr
          refine ⟨hne, hnd, ?_⟩
          intro h2 hh2
          obtain ⟨ce, hce, hfst, hcep⟩ := hf h2 hh2
          have hceh : ce.1 ≠ h := by
            intro hcon
            have := huniq ce hce hcon
            rw [this, hpf] at hcep
            cases hcep
          exact ⟨ce, mem_dictErase_of_mem_ne hce hceh, hfst, hcep⟩
        · intro ce hce pfh hpfh
          exact hpart4 ce (mem_of_mem_dictErase hce) pfh hpfh
    | some pfh =>
        dsimp only
        cases hli : dictLookup pfh p.prefix_index with
        | none =>
            dsimp only
            refine ⟨hc_nd2, hi_nd, ?_, ?_⟩
            · intro pr hpr
              obtain ⟨hne, hnd, hf⟩ := hpart3 pr hpr
              refine ⟨hne, hnd, ?_⟩
              intro h2 hh2
              obtain ⟨ce, hce, hfst, hcep⟩ := hf h2 hh2
              have hceh : ce.1 ≠ h := by
                intro hcon
                have hev := huniq ce hce hcon
                rw [hev, hpf] at hcep
                obtain rfl : pr.1 = pfh := by simpa using hcep.symm
                have := dictLookup_eq_some_of_mem_nodup (k := pr.1) (v := pr.2) hi_nd
                  (by simpa using hpr)
                rw [hli] at this
                cases this
              exact ⟨ce, mem_dictErase_of_mem_ne hce hceh, hfst, hcep⟩
            · intro ce hce pfh2 hpfh2
              exact hpart4 ce (mem_of_mem_dictErase hce) pfh2 hpfh2
        | some hs =>
            have hpr_mem : (pfh, hs) ∈ p.prefix_index := mem_of_dictLookup_eq_some hli
            obtain ⟨hs_ne, hs_nd, hs_f⟩ := hpart3 (pfh, hs) hpr_mem
            have hkey_eq : ∀ pr ∈ p.prefix_index, pr.1 = pfh → pr.2 = hs := by
              intro pr hpr hfst
              have := dictLookup_eq_some_of_mem_nodup (k := pr.1) (v := pr.2) hi_nd
                (by simpa using hpr)
              rw [hfst, hli] at this
              simpa using this.symm
            dsimp only
            split_ifs with hemp
            · refine ⟨hc_nd2, keys_dictErase_nodup hi_nd, ?_, ?_⟩
              · intro pr hpr
                have hpr_old : pr ∈ p.prefix_index := mem_of_mem_dictErase hpr
                have hpr_ne : pr.1 ≠ pfh := fst_ne_of_mem_dictErase hi_nd hpr
                obtain ⟨hne, hnd, hf⟩ := hpart3 pr hpr_old
                refine ⟨hne, hnd, ?_⟩
                intro h2 hh2
                obtain ⟨ce, hce, hfst, hcep⟩ := hf h2 hh2
                have hceh : ce.1 ≠ h := by
                  intro hcon
                  have hev := huniq ce hce hcon
                  rw [hev, hpf] at hcep
                  exact hpr_ne (by simpa using hcep.symm)
                exact ⟨ce, mem_dictErase_of_mem_ne hce hceh, hfst, hcep⟩
              · intro ce hce pfh2 hpfh2
                have hce_old := mem_of_mem_dictErase hce
                have hceh := fst_ne_of_mem_dictErase hc_nd hce
                obtain ⟨pr, hpr, hfst, hmem⟩ := hpart4 ce hce_old pfh2 hpfh2
                by_cases hprk : pr.1 = pfh
                · have hpr2 := hkey_eq pr hpr hprk
                  have hcon : ce.1 ∈ removeFirstStr h hs := by
                    rw [mem_removeFirstStr_iff hs_nd]
                    exact ⟨hpr2 ▸ hmem, hceh⟩
                  rw [hemp] at hcon
                  cases hcon
                · exact ⟨pr, mem_dictErase_of_mem_ne hpr hprk, hfst, hmem⟩
            · refine ⟨hc_nd2, keys_dictInsert_nodup hi_nd, ?_, ?_⟩
              · intro pr hpr
                rcases (mem_dictInsert_iff hi_nd).mp hpr with rfl | ⟨hpr_old, hpr_ne⟩
                · refine ⟨hemp, hs_nd.sublist (removeFirstStr_sublist h hs), ?_⟩
                  intro h2 hh2
                  obtain ⟨hh2s, hh2ne⟩ := (mem_removeFirstStr_iff hs_nd).mp hh2
                  obtain ⟨ce, hce, hfst, hcep⟩ := hs_f h2 hh2s
                  have hceh : ce.1 ≠ h := by rw [hfst]; exact hh2ne
                  exact ⟨ce, mem_dictErase_of_mem_ne hce hceh, hfst, hcep⟩
                · obtain ⟨hne, hnd, hf⟩ := hpart3 pr hpr_old
                  refine ⟨hne, hnd, ?_⟩
                  intro h2 hh2
                  obtain ⟨ce, hce, hfst, hcep⟩ := hf h2 hh2
                  have hceh : ce.1 ≠ h := by
                    intro hcon
                    have hev := huniq ce hce hcon
                    rw [hev, hpf] at hcep
                    exact hpr_ne (by simpa using hcep.symm)
                  exact ⟨ce, mem_dictErase_of_mem_ne hce hceh, hfst, hcep⟩
              · intro ce hce pfh2 hpfh2
                have hce_old := mem_of_mem_dictErase hce
                have hceh := fst_ne_of_mem_dictErase hc_nd hce
                obtain ⟨pr, hpr, hfst, hmem⟩ := hpart4 ce hce_old pfh2 hpfh2
                by_cases hprk : pr.1 = pfh
                · have hpr2 := hkey_eq pr hpr hprk
                  refine ⟨(pfh, removeFirstStr h hs), self_mem_dictInsert _ _ _, ?_, ?_⟩
                  · rw [← hprk, hfst]
                  · rw [mem_removeFirstStr_iff hs_nd]
                    exact ⟨hpr2 ▸ hmem, hceh⟩
                · exact ⟨pr, (mem_dictInsert_iff hi_nd).mpr (Or.inr ⟨hpr, hprk⟩), hfst, hmem⟩

theorem evictLru_strongInv (p : KVCachePoolM) (hinv : strongInv p) :
    strongInv (evictLru p) := by
  unfold evictLru
  cases hm : p.cache with
  | nil => exact hinv
  | cons kv rest =>
      obtain ⟨k, e⟩ := kv
      dsimp only
      exact removeEntry_strongInv k p hinv

theorem evictLoop_strongInv (p : KVCachePoolM) (hinv : strongInv p) :
    strongInv (evictLoop p) := by
  induction p using evictLoop.induct with
  | case1 p h ih =>
      rw [evictLoop, dif_pos h]
      exact ih (evictLru_strongInv p hinv)
  | case2 p h =>
      rw [evictLoop, dif_neg h]
      exact hinv

theorem removeEntry_cache_sublist (h : String) (p : KVCachePoolM) :
    List.Sublist (removeEntry h p).cache p.cache := by
  rcases removeEntry_cache h p with h2 | h2 <;> rw [h2]
  exact dictErase_sublist h p.cache

theorem evictLru_cache_sublist (p : KVCachePoolM) :
    List.Sublist (evictLru p).cache p.cache := by
  unfold evictLru
  cases hm : p.cache with
  | nil =>
      dsimp only
      rw [hm]
  | cons kv rest =>
      obtain ⟨k, e⟩ := kv
      dsimp only
      rw [← hm]
      exact removeEntry_cache_sublist k p

theorem evictLoop_cache_sublist (p : KVCachePoolM) :
    List.Sublist (evictLoop p).cache p.cache := by
  induction p using evictLoop.induct with
  | case1 p h ih =>
      rw [evictLoop, dif_pos h]
      exact ih.trans (evictLru_cache_sublist p)
  | case2 p h =>
      rw [evictLoop, dif_neg h]

theorem evictLoop_lookup_none (k : String) (p : KVCachePoolM)
    (h : dictLookup k p.cache = none) : dictLookup k (evictLoop p).cache = none := by
  rw [dictLookup_eq_none_iff] at h ⊢
  intro hmem
  exact h (((evictLoop_cache_sublist p).map Prod.fst).subset hmem)

theorem putM_char_noargs (sha : String → String) (now : ℚ) (prompt : String)
    (kv prompt_tokens : ℕ) (p : KVCachePoolM) :
    (putM sha now prompt kv prompt_tokens none none p).2 =
      { prompt_hash := computePromptHash sha prompt,
        prefix_hash :=
          if p.config.enable_prefix_sharing then computePrefixHash sha p.config prompt
          else none,
        kv_cache := kv, prompt_tokens := prompt_tokens, created_at := now, last_used := now,
        use_count := 0, memory_bytes := prompt_tokens * 8 } ∧
    (putM sha now prompt kv prompt_tokens none none p).1.cache =
      dictInsert (computePromptHash sha prompt)
        (putM sha now prompt kv prompt_tokens none none p).2 (evictLoop p).cache ∧
    (putM sha now prompt kv prompt_tokens none none p).1.prefix_index =
      (match (if p.config.enable_prefix_sharing then computePrefixHash sha p.config prompt
              else none) with
       | none => (evictLoop p).prefix_index
       | some pfh =>
           dictInsert pfh
             ((dictLookup pfh (evictLoop p).prefix_index).getD []
               ++ [computePromptHash sha prompt])
             (evictLoop p).prefix_index) := by
  unfold putM
  dsimp only
  cases hpf : (if p.config.enable_prefix_sharing then computePrefixHash sha p.config prompt
      else none) with
  | none => exact ⟨rfl, rfl, rfl⟩
  | some pfh => exact ⟨rfl, rfl, rfl⟩

theorem putM_strongInv (sha : String → String) (now : ℚ) (prompt : String)
    (kv prompt_tokens : ℕ) (p : KVCachePoolM) (hinv : strongInv p)
    (hfresh : dictLookup (computePromptHash sha prompt) p.cache = none) :
    strongInv (putM sha now prompt kv prompt_tokens none none p).1 := by
  obtain ⟨hE, hC, hP⟩ := putM_char_noargs sha now prompt kv prompt_tokens p
  have hq := evictLoop_strongInv p hinv
  obtain ⟨q1, q2, q3, q4⟩ := hq
  have hfresh2 := evictLoop_lookup_none (computePromptHash sha prompt) p hfresh
  have hkey_not : computePromptHash sha prompt ∉ (evictLoop p).cache.map Prod.fst :=
    (dictLookup_eq_none_iff _ _).mp hfresh2
  have hfst_ne : ∀ ce ∈ (evictLoop p).cache, ce.1 ≠ computePromptHash sha prompt := by
    intro ce hce hcon
    exact hkey_not (hcon ▸ List.mem_map_of_mem Prod.fst hce)
  unfold strongInv
  rw [hC, hP, hE]
  cases hpf : (if p.config.enable_prefix_sharing then computePrefixHash sha p.config prompt
      else none) with
  | none =>
      dsimp only
      refine ⟨keys_dictInsert_nodup q1, q2, ?_, ?_⟩
      · intro pr hpr
        obtain ⟨hne, hnd, hf⟩ := q3 pr hpr
        refine ⟨hne, hnd, ?_⟩
        intro h2 hh2
        obtain ⟨ce, hce, hfst, hcep⟩ := hf h2 hh2
        exact ⟨ce, (mem_dictInsert_iff q1).mpr (Or.inr ⟨hce, hfst_ne ce hce⟩), hfst, hcep⟩
      · intro ce hce pfh2 hpfh2
        rcases (mem_dictInsert_iff q1).mp hce with rfl | ⟨hce2, hne2⟩
        · simp at hpfh2
        · exact q4 ce hce2 pfh2 hpfh2
  | some pfh =>
      dsimp only
      have hexisting : ((dictLookup pfh (evictLoop p).prefix_index).getD []).Nodup ∧
          computePromptHash sha prompt ∉ (dictLookup pfh (evictLoop p).prefix_index).getD [] ∧
          (∀ h2 ∈ (dictLookup pfh (evictLoop p).prefix_index).getD [],
            ∃ ce ∈ (evictLoop p).cache, ce.1 = h2 ∧ ce.2.prefix_hash = some pfh) := by
        cases hex : dictLookup pfh (evictLoop p).prefix_index with
        | none => simp
        | some hs =>
            have hpr_mem : (pfh, hs) ∈ (evictLoop p).prefix_index :=
              mem_of_dictLookup_eq_some hex
            obtain ⟨hs_ne, hs_nd, hs_f⟩ := q3 (pfh, hs) hpr_mem
            refine ⟨by simpa using hs_nd, ?_, by simpa using hs_f⟩
            intro hcon
            obtain ⟨ce, hce, hfst, _⟩ := hs_f _ (by simpa using hcon)
            exact hfst_ne ce hce hfst
      obtain ⟨hex_nd, hex_not, hex_f⟩ := hexisting
      have hkey_uniq : ∀ pr ∈ (evictLoop p).prefix_index, pr.1 = pfh →
          pr.2 = (dictLookup pfh (evictLoop p).prefix_index).getD [] := by
        intro pr hpr hfst
        have := dictLookup_eq_some_of_mem_nodup (k := pr.1) (v := pr.2) q2
          (by simpa using hpr)
        rw [hfst] at this
        rw [this]
        rfl
      refine ⟨keys_dictInsert_nodup q1, keys_dictInsert_nodup q2, ?_, ?_⟩
      · intro pr hpr
        rcases (mem_dictInsert_iff q2).mp hpr with rfl | ⟨hpr_old, hpr_ne⟩
        · refine ⟨by simp, ?_, ?_⟩
          · rw [List.nodup_append]
            exact ⟨hex_nd, List.nodup_singleton _, by
              intro a ha hb
              rw [List.mem_singleton] at hb
              subst hb
              exact hex_not ha⟩
          · intro h2 hh2
            rcases List.mem_append.mp hh2 with hh2 | hh2
            · obtain ⟨ce, hce, hfst, hcep⟩ := hex_f h2 hh2
              exact ⟨ce, (mem_dictInsert_iff q1).mpr (Or.inr ⟨hce, hfst_ne ce hce⟩),
                hfst, hcep⟩
            · rw [List.mem_singleton] at hh2
              subst hh2
              refine ⟨_, (mem_dictInsert_iff q1).mpr (Or.inl rfl), rfl, rfl⟩
        · obtain ⟨hne, hnd, hf⟩ := q3 pr hpr_old
          refine ⟨hne, hnd, ?_⟩
          intro h2 hh2
          obtain ⟨ce, hce, hfst, hcep⟩ := hf h2 hh2
          exact ⟨ce, (mem_dictInsert_iff q1).mpr (Or.inr ⟨hce, hfst_ne ce hce⟩), hfst, hcep⟩
      · intro ce hce pfh2 hpfh2
        rcases (mem_dictInsert_iff q1).mp hce with rfl | ⟨hce2, hne2⟩
        · obtain rfl : pfh2 = pfh := by simpa using hpfh2
          refine ⟨_, self_mem_dictInsert _ _ _, rfl, ?_⟩
          simp
        · obtain ⟨pr, hpr, hfst, hmem⟩ := q4 ce hce2 pfh2 hpfh2
          by_cases hprk : pr.1 = pfh
          · have hpr2 := hkey_uniq pr hpr hprk
            refine ⟨_, self_mem_dictInsert _ _ _, by rw [← hprk, hfst], ?_⟩
            exact List.mem_append.mpr (Or.inl (hpr2 ▸ hmem))
          · exact ⟨pr, (mem_dictInsert_iff q2).mpr (Or.inr ⟨hpr, hprk⟩), hfst, hmem⟩

theorem touch_strongInv (p : KVCachePoolM) (k : String) (e e2 : KVCacheEntryM)
    (hinv : strongInv p) (hl : dictLookup k p.cache = some e)
    (hpfx : e2.prefix_hash = e.prefix_hash)
    {q : KVCachePoolM}
    (hqc : q.cache = dictErase k p.cache ++ [(k, e2)])
    (hqp : q.prefix_index = p.prefix_index) : strongInv q := by
  obtain ⟨h1, h2, h3, h4⟩ := hinv
  have hkE : (k, e) ∈ p.cache := mem_of_dictLookup_eq_some hl
  unfold strongInv
  rw [hqc, hqp]
  refine ⟨?_, h2, ?_, ?_⟩
  · rw [List.map_append, List.nodup_append]
    refine ⟨keys_dictErase_nodup h1, by simp, ?_⟩
    intro a ha hb
    simp only [List.map_cons, List.map_nil, List.mem_singleton] at hb
    subst hb
    exact not_mem_keys_dictErase h1 ha
  · intro pr hpr
    obtain ⟨hne, hnd, hf⟩ := h3 pr hpr
    refine ⟨hne, hnd, ?_⟩
    intro h2a hh2
    obtain ⟨ce, hce, hfst, hcep⟩ := hf h2a hh2
    by_cases hk : ce.1 = k
    · have hce_eq : ce.2 = e := by
        have := dictLookup_eq_some_of_mem_nodup (k := ce.1) (v := ce.2) h1 (by simpa using hce)
        rw [hk, hl] at this
        exact (Option.some.inj this).symm
      refine ⟨(k, e2), List.mem_append.mpr (Or.inr (by simp)), by rw [← hk, hfst], ?_⟩
      rw [hpfx, ← hce_eq, hcep]
    · exact ⟨ce, List.mem_append.mpr (Or.inl (mem_dictErase_of_mem_ne hce hk)), hfst, hcep⟩
  · intro ce hce pfh hpfh
    rcases List.mem_append.mp hce with hce2 | hce2
    · exact h4 ce (mem_of_mem_dictErase hce2) pfh hpfh
    · simp only [List.mem_singleton] at hce2
      subst hce2
      have hpfh2 : pfh ∈ e.prefix_hash.toList := by
        simpa [hpfx] using hpfh
      obtain ⟨pr, hpr, hfst, hmem⟩ := h4 (k, e) hkE pfh hpfh2
      exact ⟨pr, hpr, hfst, hmem⟩

theorem findCandidate_lookup (now : ℚ) (cfg : KVCachePoolConfigM)
    (cache : List (String × KVCacheEntryM)) (cs : List String)
    (ce : String × KVCacheEntryM)
    (h : findCandidate now cfg cache cs = some ce) :
    dictLookup ce.1 cache = some ce.2 := by
  induction cs with
  | nil => simp [findCandidate] at h
  | cons c cs ih =>
      unfold findCandidate at h
      cases hl : dictLookup c cache with
      | none =>
          rw [hl] at h
          exact ih h
      | some e =>
          rw [hl] at h
          dsimp only at h
          split_ifs at h with hexp
          · exact ih h
          · obtain rfl : (c, e) = ce := Option.some.inj h
            exact hl

theorem getM_strongInv (sha : String → String) (now : ℚ) (prompt : String)
    (p : KVCachePoolM) (hinv : strongInv p) :
    strongInv (getM sha now prompt none none p).1 := by
  unfold getM
  simp only [Option.getD]
  cases hke : dictLookup (computePromptHash sha prompt) p.cache with
  | some e =>
      dsimp only
      split_ifs with hexp
      · exact removeEntry_strongInv (computePromptHash sha prompt) _ hinv
      · exact touch_strongInv p (computePromptHash sha prompt) e
          { e with last_used := now, use_count := e.use_count + 1 } hinv hke rfl rfl rfl
  | none =>
      dsimp only
      cases hpf : (if p.config.enable_prefix_sharing then computePrefixHash sha p.config prompt
          else none) with
      | none => exact hinv
      | some pfh =>
          dsimp only
          split_ifs with hen
          · cases hli : dictLookup pfh p.prefix_index with
            | none => exact hinv
            | some candidates =>
                dsimp only
                cases hfc : findCandidate now p.config p.cache candidates with
                | none => exact hinv
                | some ce =>
                    dsimp only
                    exact touch_strongInv p ce.1 ce.2
                      { ce.2 with last_used := now, use_count := ce.2.use_count + 1 } hinv
                      (findCandidate_lookup now p.config p.cache candidates ce hfc) rfl rfl rfl
          · exact hinv

theorem removeRun_strongInv (hl : List String) (acc : KVCachePoolM)
    (hinv : strongInv acc) :
    strongInv (hl.foldl
      (fun acc h =>
        let r := removeEntry h acc
        { r with stats := { r.stats with ttl_evictions := r.stats.ttl_evictions + 1 } })
      acc) := by
  induction hl generalizing acc with
  | nil => exact hinv
  | cons x xs ih =>
      rw [List.foldl_cons]
      exact ih _ (removeEntry_strongInv x acc hinv)

theorem cleanupExpired_strongInv (now : ℚ) (p : KVCachePoolM) (hinv : strongInv p) :
    strongInv (cleanupExpired now p).1 := by
  unfold cleanupExpired
  dsimp only
  exact removeRun_strongInv _ p hinv

theorem clearM_strongInv (p : KVCachePoolM) : strongInv (clearM p) := by
  unfold strongInv clearM
  refine ⟨by simp, by simp, by simp, by simp⟩

/-- Freshness of one operation at a state: a `put` only with a prompt whose
hash is not currently cached (the Python class never re-puts a live prompt
in the claimed workflow). -/
def putFreshAt (sha : String → String) (op : PoolOp) (p : KVCachePoolM) : Prop :=
  match op with
  | .opPut _ prompt _ _ => dictLookup (computePromptHash sha prompt) p.cache = none
  | _ => True

/-- Freshness along a whole run, each operation judged at the state it sees. -/
def freshRun (sha : String → String) : List PoolOp → KVCachePoolM → Prop
  | [], _ => True
  | op :: ops, p => putFreshAt sha op p ∧ freshRun sha ops (applyOp sha op p)

theorem applyOp_strongInv (sha : String → String) (op : PoolOp) (p : KVCachePoolM)
    (hinv : strongInv p) (hfresh : putFreshAt sha op p) :
    strongInv (applyOp sha op p) := by
  cases op with
  | opPut now prompt kv tokens =>
      exact putM_strongInv sha now prompt kv tokens p hinv hfresh
  | opGet now prompt => exact getM_strongInv sha now prompt p hinv
  | opCleanup now => exact cleanupExpired_strongInv now p hinv
  | opClear => exact clearM_strongInv p

theorem foldl_strongInv (sha : String → String) (ops : List PoolOp) (p : KVCachePoolM)
    (hinv : strongInv p) (hf : freshRun sha ops p) :
    strongInv (ops.foldl (fun p op => applyOp sha op p) p) := by
  induction ops generalizing p with
  | nil => exact hinv
  | cons op ops ih =>
      rw [List.foldl_cons]
      exact ih _ (applyOp_strongInv sha op p hinv hf.1) hf.2

theorem strongInv_empty (cfg : KVCachePoolConfigM) : strongInv (emptyPool cfg) := by
  unfold strongInv emptyPool
  refine ⟨by simp, by simp, by simp, by simp⟩

theorem ratFloorNat_natCast (n : ℕ) : ratFloorNat (n : ℚ) = n := by
  have h := ratFloorNat_eq_floor (n : ℚ) (by positivity)
  rw [Int.floor_natCast] at h
  exact_mod_cast h

/-- The concrete hash oracle of the C5 trace: every string hashes to "P",
so the two puts of the same prompt collide on both hashes (as two puts of
one prompt do with the real SHA-256). -/
def c5sha : String → String := fun _ => "P"

def c5cfg : KVCachePoolConfigM :=
  { max_size := 50, ttl_seconds := 0, enable_prefix_sharing := true, prefix_length_ratio := 1 }

def c5prompt : String := "AAAAAAAAAA"

def c5entry : KVCacheEntryM :=
  { prompt_hash := "P", prefix_hash := some "P", kv_cache := 0, prompt_tokens := 3,
    created_at := 0, last_used := 0, use_count := 0, memory_bytes := 24 }

def c5ops : List PoolOp :=
  [PoolOp.opPut 0 c5prompt 0 3, PoolOp.opPut 0 c5prompt 0 3, PoolOp.opCleanup 1]

def c5s1 : KVCachePoolM := applyOp c5sha (PoolOp.opPut 0 c5prompt 0 3) (emptyPool c5cfg)

def c5s2 : KVCachePoolM := applyOp c5sha (PoolOp.opPut 0 c5prompt 0 3) c5s1

def c5s3 : KVCachePoolM := applyOp c5sha (PoolOp.opCleanup 1) c5s2

theorem c5_prefix_hash_eval : computePrefixHash c5sha c5cfg c5prompt = some "P" := by
  unfold computePrefixHash
  have hlen : c5prompt.length = 10 := rfl
  have hratio : c5cfg.prefix_length_ratio = 1 := rfl
  rw [hlen, hratio, mul_one, ratFloorNat_natCast]
  simp [c5sha, show c5cfg.enable_prefix_sharing = true from rfl]

theorem c5putM_entry_gen (p : KVCachePoolM) (hcfg : p.config = c5cfg) :
    (putM c5sha 0 c5prompt 0 3 none none p).2 = c5entry := by
  obtain ⟨hE, -, -⟩ := putM_char_noargs c5sha 0 c5prompt 0 3 p
  rw [hE, hcfg]
  simp [c5_prefix_hash_eval, computePromptHash, c5sha, c5entry,
    show c5cfg.enable_prefix_sharing = true from rfl]

theorem c5aux_s1 :
    c5s1.cache = [("P", c5entry)] ∧ c5s1.prefix_index = [("P", ["P"])] ∧
    c5s1.config = c5cfg := by
  have hent := c5putM_entry_gen (emptyPool c5cfg) rfl
  obtain ⟨hE, hC, hP⟩ := putM_char_noargs c5sha 0 c5prompt 0 3 (emptyPool c5cfg)
  obtain ⟨-, hcfg, -⟩ := putM_fields c5sha 0 c5prompt 0 3 none none (emptyPool c5cfg)
  have hcond : ¬((emptyPool c5cfg).config.max_size ≤ (emptyPool c5cfg).cache.length ∧
      (emptyPool c5cfg).cache ≠ []) := by
    simp [emptyPool]
  have hev : evictLoop (emptyPool c5cfg) = emptyPool c5cfg := by
    rw [evictLoop, dif_neg hcond]
  unfold c5s1 applyOp
  refine ⟨?_, ?_, ?_⟩
  · rw [hC, hent, hev]
    simp [emptyPool, dictInsert, computePromptHash, c5sha]
  · rw [hP, hev]
    simp only [show (emptyPool c5cfg).config = c5cfg from rfl,
      show c5cfg.enable_prefix_sharing = true from rfl, c5_prefix_hash_eval]
    simp [emptyPool, dictLookup, dictInsert, computePromptHash, c5sha]
  · rw [hcfg]
    rfl

theorem c5aux_s2 :
    c5s2.cache = [("P", c5entry)] ∧ c5s2.prefix_index = [("P", ["P", "P"])] ∧
    c5s2.config = c5cfg := by
  obtain ⟨h1c, h1p, h1cfg⟩ := c5aux_s1
  have hent := c5putM_entry_gen c5s1 h1cfg
  obtain ⟨hE, hC, hP⟩ := putM_char_noargs c5sha 0 c5prompt 0 3 c5s1
  obtain ⟨-, hcfg, -⟩ := putM_fields c5sha 0 c5prompt 0 3 none none c5s1
  have hcond : ¬(c5s1.config.max_size ≤ c5s1.cache.length ∧ c5s1.cache ≠ []) := by
    simp [h1c, h1cfg, c5cfg]
  have hev : evictLoop c5s1 = c5s1 := by
    rw [evictLoop, dif_neg hcond]
  unfold c5s2 applyOp
  refine ⟨?_, ?_, ?_⟩
  · rw [hC, hent, hev, h1c]
    simp [dictInsert, computePromptHash, c5sha]
  · rw [hP, hev]
    simp only [h1cfg, show c5cfg.enable_prefix_sharing = true from rfl, c5_prefix_hash_eval]
    rw [h1p]
    simp [dictLookup, dictInsert, computePromptHash, c5sha]
  · rw [hcfg, h1cfg]

theorem c5aux_s3 : c5s3.cache = [] ∧ c5s3.prefix_index = [("P", ["P"])] := by
  obtain ⟨h2c, h2p, h2cfg⟩ := c5aux_s2
  have hexpentry : isExpired 1 c5cfg c5entry = true := by
    unfold isExpired c5cfg c5entry
    simp only [decide_eq_true_eq]
    norm_num
  have hexp : (c5s2.cache.filter (fun ce => isExpired 1 c5s2.config ce.2)).map Prod.fst
      = ["P"] := by
    simp only [h2c, h2cfg]
    simp [List.filter_cons, hexpentry]
  have hl : dictLookup "P" c5s2.cache = some c5entry := by
    rw [h2c]
    simp [dictLookup]
  obtain ⟨hrc, hrp⟩ := removeEntry_char "P" c5s2 c5entry hl
  rw [h2c] at hrc
  rw [h2p] at hrp
  simp [c5entry, dictLookup, removeFirstStr, dictInsert] at hrp
  unfold c5s3 applyOp cleanupExpired
  dsimp only
  rw [hexp, List.foldl_cons, List.foldl_nil]
  dsimp only
  refine ⟨?_, ?_⟩
  · rw [hrc]
    simp [dictErase]
  · rw [hrp]

/-- C5: the claimed main-map / prefix-index mutual consistency fails on a
concrete run.  Putting the same prompt twice appends its hash a second time
to the prefix list while `dict` assignment replaces the main-map entry in
place; the later TTL cleanup removes the entry and strips only one copy
from the list, leaving a hash in the prefix index that is no key of the
(now empty) main map. -/
theorem c5_counterexample : ¬ claimConsistent (runOps c5sha c5cfg c5ops) := by
  have hrun : runOps c5sha c5cfg c5ops = c5s3 := rfl
  rw [hrun]
  obtain ⟨h3c, h3p⟩ := c5aux_s3
  intro hcl
  obtain ⟨-, hb⟩ := hcl
  have hmem : ("P", ["P"]) ∈ c5s3.prefix_index := by
    rw [h3p]
    simp
  obtain ⟨ce, hce, -⟩ := hb ("P", ["P"]) hmem "P" (by simp)
  rw [h3c] at hce
  simp at hce

/-- C5 (amended): starting from an empty pool, after any finite sequence of
put / get / cleanup_expired / clear operations in which every put stores a
prompt whose hash is not currently a key of the main map (fresh puts), the
main map and the prefix index are mutually consistent: every cached entry
with a non-null prefix hash is listed under it in the index, and every hash
listed in the index is a key of the main map.  Without the freshness
proviso the property fails (see the duplicate-hash counterexample). -/
theorem c5_amended_consistency (sha : String → String) (cfg : KVCachePoolConfigM)
    (ops : List PoolOp) (hf : freshRun sha ops (emptyPool cfg)) :
    claimConsistent (runOps sha cfg ops) :=
  strongInv_claimConsistent _ (foldl_strongInv sha ops (emptyPool cfg) (strongInv_empty cfg) hf)

/-- Concrete instantiation of the amended C5 statement: a fresh put followed
by a get of the same prompt, starting from the empty pool. -/
theorem c5_amended_witness :
    freshRun c5sha [PoolOp.opPut 0 c5prompt 0 3, PoolOp.opGet 0 c5prompt]
      (emptyPool c5cfg) ∧
    claimConsistent (runOps c5sha c5cfg
      [PoolOp.opPut 0 c5prompt 0 3, PoolOp.opGet 0 c5prompt]) :=
  ⟨⟨rfl, trivial, trivial⟩,
    c5_amended_consistency c5sha c5cfg
      [PoolOp.opPut 0 c5prompt 0 3, PoolOp.opGet 0 c5prompt] ⟨rfl, trivial, trivial⟩⟩

end MlxServing
